import Mathlib

/-!
Verification of the `compass` dependency-graph engine and its store layer.

The definitions below are a shallow embedding of the Go sources:
  * `internal/model/task.go`   — `Task`, `Task.Validate`, `Task.IsBlocked`
  * `internal/dag/dag.go`      — `Graph`, `BuildFromTasks`, `ValidateAcyclic`,
                                  `buildCyclePath`, `TopologicalSort`,
                                  `TransitiveDeps`
  * `internal/store/task.go`   — `Store.ReadyTasks`, `Store.CreateTask`,
                                  `Store.UpdateTask`, `Store.validateDeps`

Go maps over `string` keys are embedded as insertion-ordered association
lists with overwriting insert (`mapInsert`), so that "last one wins"
semantics and `len(map)` (number of distinct keys) are preserved.  A read of
a missing key yields the Go zero value, embedded via `mapGetD`.  Where the
Go code ranges over a map (an order the runtime does not fix), the embedded
function takes the enumeration as an explicit `order` parameter; theorems
quantify over all permutations of the key list.
-/

namespace Compass

/-- Association list lookup: the value stored at the first matching key. -/
def mapGet? {α : Type} (m : List (String × α)) (k : String) : Option α :=
  match m with
  | [] => none
  | (k', v) :: rest => if k' = k then some v else mapGet? rest k

/-- Go map read with zero-value default. -/
def mapGetD {α : Type} (m : List (String × α)) (k : String) (d : α) : α :=
  (mapGet? m k).getD d

/-- Go map write: overwrite the existing entry, else append. -/
def mapInsert {α : Type} (m : List (String × α)) (k : String) (v : α) :
    List (String × α) :=
  match m with
  | [] => [(k, v)]
  | (k', v') :: rest =>
      if k' = k then (k, v) :: rest else (k', v') :: mapInsert rest k v

/-- Keys of an association list, in insertion order. -/
def mapKeys {α : Type} (m : List (String × α)) : List String :=
  m.map Prod.fst

theorem mapGet?_insert_self {α : Type} (m : List (String × α)) (k : String)
    (v : α) : mapGet? (mapInsert m k v) k = some v := by
  induction m with
  | nil => simp [mapInsert, mapGet?]
  | cons hd tl ih =>
      obtain ⟨k', v'⟩ := hd
      by_cases h : k' = k
      · simp [mapInsert, h, mapGet?]
      · simp [mapInsert, h, mapGet?, ih]

theorem mapKeys_nil {α : Type} : mapKeys ([] : List (String × α)) = [] := rfl

theorem mapKeys_cons {α : Type} (k₀ : String) (v₀ : α)
    (tl : List (String × α)) :
    mapKeys ((k₀, v₀) :: tl) = k₀ :: mapKeys tl := rfl

theorem mapGet?_insert_ne {α : Type} (m : List (String × α)) (k k' : String)
    (v : α) (h : k ≠ k') : mapGet? (mapInsert m k v) k' = mapGet? m k' := by
  induction m with
  | nil => simp [mapInsert, mapGet?, h]
  | cons hd tl ih =>
      obtain ⟨k₀, v₀⟩ := hd
      by_cases h₀ : k₀ = k
      · subst h₀
        simp [mapInsert, mapGet?, h, Ne.symm h]
      · by_cases h₁ : k₀ = k'
        · subst h₁
          simp [mapInsert, h₀, mapGet?]
        · simp [mapInsert, h₀, mapGet?, h₁, ih]

theorem mapKeys_insert_mem {α : Type} (m : List (String × α)) (k : String)
    (v : α) (h : k ∈ mapKeys m) : mapKeys (mapInsert m k v) = mapKeys m := by
  induction m with
  | nil => simp [mapKeys_nil] at h
  | cons hd tl ih =>
      obtain ⟨k₀, v₀⟩ := hd
      by_cases h₀ : k₀ = k
      · subst h₀
        simp [mapInsert, mapKeys_cons]
      · rw [mapKeys_cons] at h
        rcases List.mem_cons.mp h with h | h
        · exact absurd h.symm h₀
        · simp only [mapInsert, if_neg h₀, mapKeys_cons]
          rw [ih h]

theorem mapKeys_insert_not_mem {α : Type} (m : List (String × α)) (k : String)
    (v : α) (h : k ∉ mapKeys m) :
    mapKeys (mapInsert m k v) = mapKeys m ++ [k] := by
  induction m with
  | nil => simp [mapInsert, mapKeys_nil, mapKeys_cons]
  | cons hd tl ih =>
      obtain ⟨k₀, v₀⟩ := hd
      rw [mapKeys_cons] at h
      have h₀ : k₀ ≠ k := fun e => h (e ▸ List.mem_cons_self _ _)
      have h₁ : k ∉ mapKeys tl := fun e => h (List.mem_cons_of_mem _ e)
      simp only [mapInsert, if_neg h₀, mapKeys_cons, ih h₁, List.cons_append]

theorem mem_mapKeys_iff_get {α : Type} (m : List (String × α)) (k : String) :
    k ∈ mapKeys m ↔ (mapGet? m k).isSome := by
  induction m with
  | nil => simp [mapKeys_nil, mapGet?]
  | cons hd tl ih =>
      obtain ⟨k₀, v₀⟩ := hd
      by_cases h : k₀ = k
      · subst h
        simp [mapKeys_cons, mapGet?]
      · simp [mapKeys_cons, mapGet?, h, ih, Ne.symm h]

theorem mapKeys_nodup_insert {α : Type} (m : List (String × α)) (k : String)
    (v : α) (h : (mapKeys m).Nodup) : (mapKeys (mapInsert m k v)).Nodup := by
  by_cases hk : k ∈ mapKeys m
  · rwa [mapKeys_insert_mem m k v hk]
  · rw [mapKeys_insert_not_mem m k v hk]
    simpa [List.nodup_append] using ⟨h, hk⟩

/-! ## Data model (`internal/model/task.go`, `internal/model/status.go`)

`Status` and `TaskType` are Go string types; tasks parsed from files can
carry arbitrary strings, so both are embedded as `String` with the named
constants.  Go `time.Time` fields are embedded as `Nat` timestamps (their
values never influence any claimed property). -/

def statusOpen : String := "open"

def statusInProgress : String := "in_progress"

def statusClosed : String := "closed"

def typeTask : String := "task"

def typeEpic : String := "epic"

structure Task where
  id : String
  title : String
  taskType : String
  project : String
  epic : String
  status : String
  priority : Option Int
  dependsOn : List String
  createdBy : String
  createdAt : Nat
  updatedAt : Nat
  deriving DecidableEq, Repr

/-- `ValidateStatus` from `internal/model/status.go`. -/
def ValidateStatus (s : String) : Except String Unit :=
  if s = statusOpen ∨ s = statusInProgress ∨ s = statusClosed then .ok ()
  else .error ("invalid status " ++ s ++ ": must be one of open, in_progress, closed")

/-- The dependency-checking loop at the end of `Task.Validate`:
`seen` is the Go `map[string]bool` of already-visited dependency ids,
embedded as the list of its keys. -/
def depsCheck (tid : String) : List String → List String → Except String Unit
  | [], _ => .ok ()
  | dep :: rest, seen =>
      if dep = tid then .error "task cannot depend on itself"
      else if dep ∈ seen then .error ("duplicate dependency " ++ dep)
      else depsCheck tid rest (dep :: seen)

/-- `Task.Validate` from `internal/model/task.go`. -/
def Task.Validate (t : Task) : Except String Unit :=
  if t.id = "" then .error "task id is required"
  else if t.title = "" then .error "task title is required"
  else if t.project = "" then .error "task project is required"
  else if t.taskType ≠ typeTask ∧ t.taskType ≠ typeEpic then
    .error ("invalid task type " ++ t.taskType ++ ": must be task or epic")
  else match ValidateStatus t.status with
    | .error e => .error e
    | .ok () =>
        if t.priority.any fun p => p < 0 ∨ p > 3 then
          .error "invalid priority: must be 0-3"
        else if t.taskType = typeEpic ∧ t.dependsOn ≠ [] then
          .error "epic-type tasks cannot have dependencies"
        else depsCheck t.id t.dependsOn []

/-- `Task.IsBlocked` from `internal/model/task.go`: true iff some dependency
is missing from the map or not closed.  The Go loop returns at the first
such dependency; `List.any` has the same value. -/
def Task.IsBlocked (t : Task) (allTasks : List (String × Task)) : Bool :=
  t.dependsOn.any fun dep =>
    match mapGet? allTasks dep with
    | none => true
    | some dt => dt.status ≠ statusClosed

/-! ## Graph construction (`internal/dag/dag.go`, lines 10–30) -/

structure Graph where
  nodes : List (String × Task)
  edges : List (String × List String)
  rev : List (String × List String)
  deriving Repr

/-- One iteration of the `BuildFromTasks` loop body. -/
def addTask (g : Graph) (t : Task) : Graph :=
  { nodes := mapInsert g.nodes t.id t
    edges := mapInsert g.edges t.id t.dependsOn
    rev := t.dependsOn.foldl
      (fun r dep => mapInsert r dep (mapGetD r dep [] ++ [t.id])) g.rev }

/-- `BuildFromTasks` from `internal/dag/dag.go`. -/
def BuildFromTasks (tasks : List Task) : Graph :=
  tasks.foldl addTask ⟨[], [], []⟩

/-- The node-key list of a graph (Go: the key set of `g.nodes`). -/
def keys (g : Graph) : List String := mapKeys g.nodes

/-- Go: `_, ok := g.nodes[id]`. -/
def containsNode (g : Graph) (id : String) : Bool := (mapGet? g.nodes id).isSome

/-- Go: `g.edges[id]` (nil for a missing key). -/
def edgesOf (g : Graph) (id : String) : List String := mapGetD g.edges id []

/-- Go: `g.rev[id]` (nil for a missing key). -/
def revOf (g : Graph) (id : String) : List String := mapGetD g.rev id []

theorem containsNode_iff_mem_keys (g : Graph) (id : String) :
    containsNode g id = true ↔ id ∈ keys g := by
  rw [keys, mem_mapKeys_iff_get, containsNode]

/-! ## Cycle validation (`internal/dag/dag.go`, lines 32–93)

The recursive Go `dfs` closure terminates because it recurses only into
white nodes, which it immediately colors gray.  The embedding makes this
explicit with a fuel parameter; `none` means the fuel ran out, and
`dfsVisit_isSome` below proves this never happens at the fuel
`ValidateAcyclic` supplies, so the corresponding branches are dead code. -/

structure DfsState where
  color : List (String × Nat)
  parent : List (String × String)
  deriving Repr

/-- Go: `color[id]` (0 = white, 1 = gray, 2 = black; missing key = white). -/
def colorOf (st : DfsState) (id : String) : Nat := mapGetD st.color id 0

def grayify (st : DfsState) (node : String) : DfsState :=
  { st with color := mapInsert st.color node 1 }

def blacken (st : DfsState) (node : String) : DfsState :=
  { st with color := mapInsert st.color node 2 }

def setParent (st : DfsState) (dep node : String) : DfsState :=
  { st with parent := mapInsert st.parent dep node }

/-- The loop of Go `buildCyclePath` follows parent pointers from `from`
until it reaches `to`; the fuel (always sufficient in real calls, where
`to` is an ancestor of `from` in the parent map) bounds the walk. -/
def cyclePathLoop (parent : List (String × String)) :
    Nat → String → String → List String → List String
  | 0, _, _, path => path
  | fuel + 1, cur, tgt, path =>
      if cur = tgt then path
      else cyclePathLoop parent fuel (mapGetD parent cur "") tgt (path ++ [cur])

/-- `buildCyclePath` from `internal/dag/dag.go`. -/
def buildCyclePath (parent : List (String × String)) (from_ tgt : String) :
    String :=
  let path := cyclePathLoop parent (parent.length + 1) from_ tgt [tgt]
  String.intercalate " -> " (path ++ [tgt]).reverse

/-- The `for _, dep := range g.edges[node]` loop body of the Go `dfs`
closure, abstracted over the recursive call `visit`. -/
def dfsDeps (g : Graph) (visit : DfsState → String → Option (Except String DfsState))
    (node : String) : List String → DfsState → Option (Except String DfsState)
  | [], st => some (.ok st)
  | dep :: rest, st =>
      if ¬ containsNode g dep then dfsDeps g visit node rest st
      else if colorOf st dep = 1 then
        some (.error ("cycle detected: " ++ buildCyclePath st.parent node dep))
      else if colorOf st dep = 0 then
        match visit (setParent st dep node) dep with
        | none => none
        | some (.error e) => some (.error e)
        | some (.ok st') => dfsDeps g visit node rest st'
      else dfsDeps g visit node rest st

/-- The Go `dfs` closure: mark gray, walk the dependency list, mark black. -/
def dfsVisit (g : Graph) : Nat → DfsState → String → Option (Except String DfsState)
  | 0, _, _ => none
  | fuel + 1, st, node =>
      match dfsDeps g (dfsVisit g fuel) node (edgesOf g node) (grayify st node) with
      | none => none
      | some (.error e) => some (.error e)
      | some (.ok st') => some (.ok (blacken st' node))

/-- The `for id := range g.nodes` loop of `ValidateAcyclic`; `order` is the
map-iteration order the Go runtime happened to pick. -/
def validateLoop (g : Graph) (fuel : Nat) :
    List String → DfsState → Except String Unit
  | [], _ => .ok ()
  | id :: rest, st =>
      if colorOf st id = 0 then
        match dfsVisit g fuel st id with
        | none => .error "dfs fuel exhausted"
        | some (.error e) => .error e
        | some (.ok st') => validateLoop g fuel rest st'
      else validateLoop g fuel rest st

/-- `Graph.ValidateAcyclic` from `internal/dag/dag.go`, parametrized by the
iteration order of `g.nodes`. -/
def ValidateAcyclic (g : Graph) (order : List String) : Except String Unit :=
  validateLoop g ((keys g).length + 1) order ⟨[], []⟩

/-! ## Topological sort (`internal/dag/dag.go`, lines 95–139) -/

/-- The final value `inDegree[id]` holds after the two initialization loops:
the number of entries of `g.edges[id]` that exist in `g.nodes` (each key's
count depends only on its own edge list, so map-iteration order of those
loops is irrelevant). -/
def resolvableCount (g : Graph) (id : String) : Nat :=
  ((edgesOf g id).filter fun dep => containsNode g dep).length

/-- Go's byte-wise `<=` on strings, on the code-point sequence (UTF-8 byte
order and code-point order agree). -/
def charListLe : List Char → List Char → Bool
  | [], _ => true
  | _ :: _, [] => false
  | a :: as, b :: bs =>
      if a.toNat < b.toNat then true
      else if b.toNat < a.toNat then false
      else charListLe as bs

def strLe (a b : String) : Bool := charListLe a.data b.data

theorem charListLe_total (as bs : List Char) :
    charListLe as bs = true ∨ charListLe bs as = true := by
  induction as generalizing bs with
  | nil => left; rfl
  | cons a as ih =>
      cases bs with
      | nil => right; rfl
      | cons b bs =>
          rcases Nat.lt_trichotomy a.toNat b.toNat with h | h | h
          · left
            rw [charListLe, if_pos h]
          · rcases ih bs with h' | h'
            · left
              rw [charListLe, if_neg (by omega), if_neg (by omega)]
              exact h'
            · right
              rw [charListLe, if_neg (by omega), if_neg (by omega)]
              exact h'
          · right
            rw [charListLe, if_pos h]

theorem charListLe_trans (as bs cs : List Char)
    (h₁ : charListLe as bs = true) (h₂ : charListLe bs cs = true) :
    charListLe as cs = true := by
  induction as generalizing bs cs with
  | nil => rfl
  | cons a as ih =>
      cases bs with
      | nil => cases h₁
      | cons b bs =>
          cases cs with
          | nil => cases h₂
          | cons c cs =>
              rw [charListLe] at h₁ h₂ ⊢
              by_cases hab : a.toNat < b.toNat
              · by_cases hbc : b.toNat < c.toNat
                · rw [if_pos (by omega)]
                · rw [if_neg (by omega)] at h₂
                  by_cases hcb : c.toNat < b.toNat
                  · rw [if_pos hcb] at h₂; cases h₂
                  · rw [if_pos (by omega)]
              · rw [if_neg hab] at h₁
                by_cases hba : b.toNat < a.toNat
                · rw [if_pos hba] at h₁; cases h₁
                · rw [if_neg hba] at h₁
                  by_cases hbc : b.toNat < c.toNat
                  · rw [if_pos (by omega)]
                  · rw [if_neg hbc] at h₂
                    by_cases hcb : c.toNat < b.toNat
                    · rw [if_pos hcb] at h₂; cases h₂
                    · rw [if_neg hcb] at h₂
                      rw [if_neg (by omega), if_neg (by omega)]
                      exact ih bs cs h₁ h₂

theorem charListLe_antisymm (as bs : List Char)
    (h₁ : charListLe as bs = true) (h₂ : charListLe bs as = true) :
    as = bs := by
  induction as generalizing bs with
  | nil =>
      cases bs with
      | nil => rfl
      | cons b bs => cases h₂
  | cons a as ih =>
      cases bs with
      | nil => cases h₁
      | cons b bs =>
          rw [charListLe] at h₁ h₂
          by_cases hab : a.toNat < b.toNat
          · rw [if_neg (by omega), if_pos hab] at h₂; cases h₂
          · rw [if_neg hab] at h₁
            by_cases hba : b.toNat < a.toNat
            · rw [if_pos hba] at h₁; cases h₁
            · rw [if_neg hba] at h₁
              rw [if_neg (by omega), if_neg (by omega)] at h₂
              have hn : a.toNat = b.toNat := by omega
              have hchar : a = b := Char.ext (UInt32.toNat.inj hn)
              rw [hchar, ih bs h₁ h₂]

theorem strLe_total (a b : String) : strLe a b = true ∨ strLe b a = true :=
  charListLe_total a.data b.data

theorem strLe_trans (a b c : String) (h₁ : strLe a b = true)
    (h₂ : strLe b c = true) : strLe a c = true :=
  charListLe_trans a.data b.data c.data h₁ h₂

theorem strLe_antisymm (a b : String) (h₁ : strLe a b = true)
    (h₂ : strLe b a = true) : a = b := by
  have h := charListLe_antisymm a.data b.data h₁ h₂
  cases a; cases b; cases h; rfl

/-- Go `sort.Strings`. -/
def sortStrings (l : List String) : List String :=
  l.insertionSort fun a b => strLe a b = true

/-- Body of `for _, dependent := range g.rev[node]` in `TopologicalSort`:
skip unknown dependents, decrement the in-degree, enqueue (and re-sort the
queue) when the in-degree reaches exactly zero. -/
def processDependent (g : Graph) (st : List (String × Int) × List String)
    (dependent : String) : List (String × Int) × List String :=
  if ¬ containsNode g dependent then st
  else
    let d : Int := mapGetD st.1 dependent 0 - 1
    let inDeg := mapInsert st.1 dependent d
    if d = 0 then (inDeg, sortStrings (st.2 ++ [dependent])) else (inDeg, st.2)

/-- The `for len(queue) > 0` loop of `TopologicalSort`.  Each iteration pops
the queue head, appends it to the result, and processes its dependents.
`none` = fuel exhausted; `kahnLoop_spec` shows the fuel passed by
`TopologicalSort` always suffices. -/
def kahnLoop (g : Graph) :
    Nat → List (String × Int) → List String → List String → Option (List String)
  | _, _, [], result => some result
  | 0, _, _ :: _, _ => none
  | fuel + 1, inDeg, node :: rest, result =>
      let st := (revOf g node).foldl (processDependent g) (inDeg, rest)
      kahnLoop g fuel st.1 st.2 (result ++ [node])

/-- `Graph.TopologicalSort` from `internal/dag/dag.go`, parametrized by the
map-iteration order (a permutation of the node keys): it seeds the
in-degree map and the frontier, which is sorted before use. -/
def TopologicalSort (g : Graph) (order : List String) :
    Except String (List String) :=
  let inDeg : List (String × Int) :=
    order.map fun id => (id, (resolvableCount g id : Int))
  let queue := sortStrings (order.filter fun id => resolvableCount g id = 0)
  match kahnLoop g (order.length + 1) inDeg queue [] with
  | none => .error "kahn fuel exhausted"
  | some result =>
      if result.length ≠ g.nodes.length then
        .error "cycle detected: topological sort incomplete"
      else .ok result

/-! ## Transitive dependencies (`internal/dag/dag.go`, lines 141–156) -/

structure WalkState where
  visited : List String
  result : List String
  deriving Repr

/-- The `for _, dep := range g.edges[node]` loop of the Go `walk` closure,
abstracted over the recursive call. -/
def walkDeps (g : Graph) (walkF : WalkState → String → Option WalkState) :
    List String → WalkState → Option WalkState
  | [], st => some st
  | dep :: rest, st =>
      if dep ∈ st.visited then walkDeps g walkF rest st
      else match walkF ⟨dep :: st.visited, st.result ++ [dep]⟩ dep with
        | none => none
        | some st' => walkDeps g walkF rest st'

/-- The Go `walk` closure, with fuel for the recursion (it recurses only
into freshly visited ids, so the number of distinct dependency targets
bounds the depth). -/
def walkFuel (g : Graph) : Nat → WalkState → String → Option WalkState
  | 0, _, _ => none
  | fuel + 1, st, node => walkDeps g (walkFuel g fuel) (edgesOf g node) st

/-- All ids occurring in some edge list (the candidates for `visited`). -/
def depsUniverse (g : Graph) : List String :=
  (g.edges.map Prod.snd).flatten.dedup

/-- `Graph.TransitiveDeps` from `internal/dag/dag.go`. -/
def TransitiveDeps (g : Graph) (id : String) : List String :=
  match walkFuel g ((depsUniverse g).length + 1) ⟨[], []⟩ id with
  | some st => st.result
  | none => []

/-! ## Structure of the graph built by `BuildFromTasks` -/

/-- The last task in `tasks` carrying id `n` ("last one wins" on duplicate
ids, matching Go map insertion). -/
def lastTask (tasks : List Task) (n : String) : Option Task :=
  tasks.reverse.find? fun t => t.id = n

theorem foldl_addTask_nodes (tasks : List Task) (g : Graph) (n : String) :
    mapGet? ((tasks.foldl addTask g).nodes) n =
      (lastTask tasks n).or (mapGet? g.nodes n) := by
  induction tasks generalizing g with
  | nil => simp [lastTask]
  | cons t ts ih =>
      rw [List.foldl_cons, ih]
      unfold lastTask
      rw [List.reverse_cons, List.find?_append, Option.or_assoc]
      congr 1
      show mapGet? (mapInsert g.nodes t.id t) n = _
      by_cases h : t.id = n
      · subst h
        simp [mapGet?_insert_self]
      · simp [mapGet?_insert_ne _ _ _ _ h, List.find?_cons, h]

theorem option_map_or {α β : Type} (f : α → β) (o₁ o₂ : Option α) :
    (o₁.or o₂).map f = (o₁.map f).or (o₂.map f) := by
  cases o₁ <;> simp

theorem foldl_addTask_edges (tasks : List Task) (g : Graph) (n : String) :
    mapGet? ((tasks.foldl addTask g).edges) n =
      ((lastTask tasks n).map Task.dependsOn).or (mapGet? g.edges n) := by
  induction tasks generalizing g with
  | nil => simp [lastTask]
  | cons t ts ih =>
      rw [List.foldl_cons, ih]
      unfold lastTask
      rw [List.reverse_cons, List.find?_append, option_map_or, Option.or_assoc]
      congr 1
      by_cases h : t.id = n
      · subst h
        show _ = (Option.map Task.dependsOn (List.find? _ [t])).or _
        rw [show List.find? (fun t' => decide (t'.id = t.id)) [t] = some t by
          simp [List.find?_cons]]
        show mapGet? (mapInsert g.edges t.id t.dependsOn) t.id = _
        simp [mapGet?_insert_self]
      · show _ = (Option.map Task.dependsOn (List.find? _ [t])).or _
        rw [show List.find? (fun t' => decide (t'.id = n)) [t] = none by
          simp [List.find?_cons, h]]
        show mapGet? (mapInsert g.edges t.id t.dependsOn) n = _
        rw [mapGet?_insert_ne _ _ _ _ h]
        simp

theorem nodes_get_build (tasks : List Task) (n : String) :
    mapGet? (BuildFromTasks tasks).nodes n = lastTask tasks n := by
  rw [BuildFromTasks, foldl_addTask_nodes]
  simp [mapGet?]

theorem edges_get_build (tasks : List Task) (n : String) :
    mapGet? (BuildFromTasks tasks).edges n =
      (lastTask tasks n).map Task.dependsOn := by
  rw [BuildFromTasks, foldl_addTask_edges]
  simp [mapGet?]

theorem edgesOf_build (tasks : List Task) (n : String) :
    edgesOf (BuildFromTasks tasks) n =
      ((lastTask tasks n).map Task.dependsOn).getD [] := by
  rw [edgesOf, mapGetD, edges_get_build]

theorem containsNode_build (tasks : List Task) (n : String) :
    containsNode (BuildFromTasks tasks) n = true ↔
      ∃ t ∈ tasks, t.id = n := by
  rw [containsNode, nodes_get_build, lastTask]
  rw [Option.isSome_iff_exists]
  constructor
  · rintro ⟨t, ht⟩
    refine ⟨t, List.mem_reverse.mp (List.mem_of_find?_eq_some ht), ?_⟩
    simpa using List.find?_some ht
  · rintro ⟨t, ht, rfl⟩
    have : (List.find? (fun t' => t'.id = t.id) tasks.reverse).isSome := by
      rw [List.find?_isSome]
      exact ⟨t, List.mem_reverse.mpr ht, by simp⟩
    rcases Option.isSome_iff_exists.mp this with ⟨u, hu⟩
    exact ⟨u, hu⟩

theorem lastTask_id (tasks : List Task) (n : String) (t : Task)
    (h : lastTask tasks n = some t) : t.id = n := by
  have := List.find?_some h
  simpa using this

theorem lastTask_mem (tasks : List Task) (n : String) (t : Task)
    (h : lastTask tasks n = some t) : t ∈ tasks :=
  List.mem_reverse.mp (List.mem_of_find?_eq_some h)

/-- The inner `for _, dep := range t.DependsOn` loop of `BuildFromTasks`:
its effect on one reverse-adjacency list. -/
theorem revFold_get (deps : List String) (tid : String)
    (r : List (String × List String)) (d : String) :
    mapGetD (deps.foldl
        (fun r' dep => mapInsert r' dep (mapGetD r' dep [] ++ [tid])) r) d [] =
      mapGetD r d [] ++ List.replicate (deps.count d) tid := by
  induction deps generalizing r with
  | nil => simp
  | cons dep rest ih =>
      rw [List.foldl_cons, ih]
      by_cases h : dep = d
      · subst h
        rw [mapGetD, mapGet?_insert_self]
        simp [List.count_cons, List.replicate_succ, mapGetD]
      · rw [mapGetD, mapGet?_insert_ne _ _ _ _ h]
        simp [List.count_cons, Ne.symm h, mapGetD]

theorem foldl_addTask_rev (tasks : List Task) (g : Graph) (d : String) :
    mapGetD ((tasks.foldl addTask g).rev) d [] =
      mapGetD g.rev d [] ++
        tasks.flatMap (fun t => List.replicate (t.dependsOn.count d) t.id) := by
  induction tasks generalizing g with
  | nil => simp
  | cons t ts ih =>
      rw [List.foldl_cons, ih, List.flatMap_cons]
      show mapGetD (addTask g t).rev d [] ++ _ = _
      rw [addTask]
      dsimp only
      rw [revFold_get, List.append_assoc]

theorem revOf_build (tasks : List Task) (d : String) :
    revOf (BuildFromTasks tasks) d =
      tasks.flatMap fun t => List.replicate (t.dependsOn.count d) t.id := by
  rw [revOf, BuildFromTasks, foldl_addTask_rev]
  simp [mapGetD, mapGet?]

theorem keys_build_nodup (tasks : List Task) :
    (keys (BuildFromTasks tasks)).Nodup := by
  rw [BuildFromTasks]
  have : ∀ g : Graph, (mapKeys g.nodes).Nodup →
      (mapKeys (tasks.foldl addTask g).nodes).Nodup := by
    induction tasks with
    | nil => intro g h; exact h
    | cons t ts ih =>
        intro g h
        rw [List.foldl_cons]
        exact ih _ (mapKeys_nodup_insert _ _ _ h)
  exact this ⟨[], [], []⟩ List.nodup_nil

theorem mem_keys_build (tasks : List Task) (n : String) :
    n ∈ keys (BuildFromTasks tasks) ↔ n ∈ tasks.map Task.id := by
  rw [keys, mem_mapKeys_iff_get, ← containsNode]
  rw [show (containsNode (BuildFromTasks tasks) n = true) ↔ _ from
    containsNode_build tasks n]
  simp [List.mem_map]

/-- In any graph produced by `BuildFromTasks`, an id with a nonempty edge
list is a node. -/
theorem edges_nonempty_mem_keys (tasks : List Task) (n : String)
    (h : edgesOf (BuildFromTasks tasks) n ≠ []) :
    containsNode (BuildFromTasks tasks) n = true := by
  rw [edgesOf_build] at h
  rw [containsNode, nodes_get_build]
  cases hl : lastTask tasks n with
  | none => rw [hl] at h; simp at h
  | some t => simp

/-! ## The resolvable-edge relation and acyclicity -/

/-- One resolvable dependency edge: `b` occurs in `a`'s edge list and is a
node of the graph.  This is exactly the edge relation every traversal in
`dag.go` follows (dangling ids are skipped everywhere). -/
def resStep (g : Graph) (a b : String) : Prop :=
  b ∈ edgesOf g a ∧ containsNode g b = true

/-- Reachability along one or more resolvable edges. -/
def Reaches (g : Graph) : String → String → Prop :=
  Relation.TransGen (resStep g)

/-- The graph's resolvable dependency edges form a DAG. -/
def AcyclicG (g : Graph) : Prop := ∀ x, ¬ Reaches g x x

/-! ## DFS color-state helpers -/

theorem mapGetD_insert_self {α : Type} (m : List (String × α)) (k : String)
    (v d : α) : mapGetD (mapInsert m k v) k d = v := by
  rw [mapGetD, mapGet?_insert_self]
  rfl

theorem mapGetD_insert_ne {α : Type} (m : List (String × α)) (k k' : String)
    (v d : α) (h : k ≠ k') : mapGetD (mapInsert m k v) k' d = mapGetD m k' d := by
  rw [mapGetD, mapGet?_insert_ne _ _ _ _ h, mapGetD]

theorem colorOf_grayify_self (st : DfsState) (node : String) :
    colorOf (grayify st node) node = 1 := by
  rw [colorOf, grayify]
  exact mapGetD_insert_self _ _ _ _

theorem colorOf_grayify_ne (st : DfsState) (node x : String) (h : node ≠ x) :
    colorOf (grayify st node) x = colorOf st x := by
  rw [colorOf, grayify]
  exact mapGetD_insert_ne _ _ _ _ _ h

theorem colorOf_blacken_self (st : DfsState) (node : String) :
    colorOf (blacken st node) node = 2 := by
  rw [colorOf, blacken]
  exact mapGetD_insert_self _ _ _ _

theorem colorOf_blacken_ne (st : DfsState) (node x : String) (h : node ≠ x) :
    colorOf (blacken st node) x = colorOf st x := by
  rw [colorOf, blacken]
  exact mapGetD_insert_ne _ _ _ _ _ h

theorem colorOf_setParent (st : DfsState) (dep node x : String) :
    colorOf (setParent st dep node) x = colorOf st x := rfl

/-- All colors are at most black; true of every state the algorithm ever
builds (it writes only 1 and 2, and missing keys read 0). -/
def colorBound (st : DfsState) : Prop := ∀ x, colorOf st x ≤ 2

/-- Every black node has all its resolvable dependencies black. -/
def blackInv (g : Graph) (st : DfsState) : Prop :=
  ∀ x d, colorOf st x = 2 → resStep g x d → colorOf st d = 2

/-- No resolvable cycle passes through a black node. -/
def noBlackCycle (g : Graph) (st : DfsState) : Prop :=
  ∀ x, colorOf st x = 2 → ¬ Reaches g x x

/-- No node is gray (holds between top-level DFS roots). -/
def noGray (st : DfsState) : Prop := ∀ q, colorOf st q ≠ 1

/-- What one successful (no error, no fuel exhaustion) `dfs` call does to
the color state. -/
structure StepSpec (g : Graph) (st st' : DfsState) : Prop where
  mono : ∀ x, colorOf st x ≤ colorOf st' x
  grayPres : ∀ x, colorOf st x = 1 → colorOf st' x = 1
  blackPres : ∀ x, colorOf st x = 2 → colorOf st' x = 2
  noNewGray : ∀ x, colorOf st' x = 1 → colorOf st x = 1
  boundPres : colorBound st → colorBound st'
  invPres : blackInv g st ∧ noBlackCycle g st →
    blackInv g st' ∧ noBlackCycle g st'

theorem StepSpec.refl (g : Graph) (st : DfsState) : StepSpec g st st :=
  ⟨fun _ => le_refl _, fun _ h => h, fun _ h => h, fun _ h => h, id, id⟩

theorem StepSpec.comp {g : Graph} {st₁ st₂ st₃ : DfsState}
    (a : StepSpec g st₁ st₂) (b : StepSpec g st₂ st₃) : StepSpec g st₁ st₃ :=
  ⟨fun x => le_trans (a.mono x) (b.mono x),
   fun x h => b.grayPres x (a.grayPres x h),
   fun x h => b.blackPres x (a.blackPres x h),
   fun x h => a.noNewGray x (b.noNewGray x h),
   fun h => b.boundPres (a.boundPres h),
   fun h => b.invPres (a.invPres h)⟩

/-- Transport `StepSpec` along color-preserving state tweaks (parent-map
writes do not touch colors). -/
theorem stepSpec_congr {g : Graph} {st₁ st₂ st₁' st₂' : DfsState}
    (h₁ : ∀ x, colorOf st₁ x = colorOf st₁' x)
    (h₂ : ∀ x, colorOf st₂ x = colorOf st₂' x)
    (a : StepSpec g st₁ st₂) : StepSpec g st₁' st₂' := by
  have hb₁ : blackInv g st₁ ↔ blackInv g st₁' := by
    unfold blackInv
    constructor <;> intro h x d hx hs
    · rw [← h₁]; exact h x d (by rwa [h₁]) hs
    · rw [h₁]; exact h x d (by rwa [← h₁]) hs
  have hb₂ : blackInv g st₂ ↔ blackInv g st₂' := by
    unfold blackInv
    constructor <;> intro h x d hx hs
    · rw [← h₂]; exact h x d (by rwa [h₂]) hs
    · rw [h₂]; exact h x d (by rwa [← h₂]) hs
  have hc₁ : noBlackCycle g st₁ ↔ noBlackCycle g st₁' := by
    unfold noBlackCycle
    constructor <;> intro h x hx
    · exact h x (by rwa [h₁])
    · exact h x (by rwa [← h₁])
  have hc₂ : noBlackCycle g st₂ ↔ noBlackCycle g st₂' := by
    unfold noBlackCycle
    constructor <;> intro h x hx
    · exact h x (by rwa [h₂])
    · exact h x (by rwa [← h₂])
  refine ⟨fun x => ?_, fun x h => ?_, fun x h => ?_, fun x h => ?_,
    fun h x => ?_, fun h => ?_⟩
  · rw [← h₁, ← h₂]; exact a.mono x
  · rw [← h₂]; exact a.grayPres x (by rwa [h₁])
  · rw [← h₂]; exact a.blackPres x (by rwa [h₁])
  · rw [← h₁]; exact a.noNewGray x (by rwa [h₂])
  · rw [← h₂]; exact a.boundPres (fun y => by rw [h₁]; exact h y) x
  · rw [← hb₂, ← hc₂]
    exact a.invPres ⟨hb₁.mpr h.1, hc₁.mpr h.2⟩

theorem blackInv_congr (g : Graph) {st st' : DfsState}
    (h : ∀ y, colorOf st y = 2 ↔ colorOf st' y = 2) (hb : blackInv g st) :
    blackInv g st' := by
  intro x d hx hs
  exact (h d).mp (hb x d ((h x).mpr hx) hs)

theorem noBlackCycle_congr (g : Graph) {st st' : DfsState}
    (h : ∀ y, colorOf st y = 2 ↔ colorOf st' y = 2) (hc : noBlackCycle g st) :
    noBlackCycle g st' := by
  intro x hx
  exact hc x ((h x).mpr hx)

/-- Specification of one successful recursive `dfs` call on a white node. -/
def VisitOK (g : Graph)
    (visit : DfsState → String → Option (Except String DfsState)) : Prop :=
  ∀ st dep st', colorOf st dep = 0 → colorBound st →
    visit st dep = some (.ok st') → StepSpec g st st' ∧ colorOf st' dep = 2

theorem dfsDeps_ok (g : Graph)
    (visit : DfsState → String → Option (Except String DfsState))
    (node : String) (hv : VisitOK g visit) :
    ∀ deps st st', colorBound st →
      dfsDeps g visit node deps st = some (.ok st') →
      StepSpec g st st' ∧
        ∀ d ∈ deps, containsNode g d = true → colorOf st' d = 2 := by
  intro deps
  induction deps with
  | nil =>
      intro st st' _ h
      rw [dfsDeps] at h
      cases h
      exact ⟨StepSpec.refl g st, by simp⟩
  | cons dep rest ih =>
      intro st st' hb h
      rw [dfsDeps] at h
      by_cases hc : containsNode g dep = true
      · rw [if_neg (by simpa using hc)] at h
        by_cases hgray : colorOf st dep = 1
        · rw [if_pos hgray] at h
          cases h
        · rw [if_neg hgray] at h
          by_cases hwhite : colorOf st dep = 0
          · rw [if_pos hwhite] at h
            cases hv0 : visit (setParent st dep node) dep with
            | none => rw [hv0] at h; cases h
            | some r =>
                cases r with
                | error e => rw [hv0] at h; cases h
                | ok st₁ =>
                    rw [hv0] at h
                    have hspec₁ := hv (setParent st dep node) dep st₁
                      (by rw [colorOf_setParent]; exact hwhite)
                      (fun x => by rw [colorOf_setParent]; exact hb x) hv0
                    have hstep₁ : StepSpec g st st₁ :=
                      stepSpec_congr (colorOf_setParent st dep node)
                        (fun _ => rfl) hspec₁.1
                    have hrest := ih st₁ st' (hstep₁.boundPres hb) h
                    refine ⟨hstep₁.comp hrest.1, ?_⟩
                    intro d hd _
                    rcases List.mem_cons.mp hd with rfl | hd
                    · exact hrest.1.blackPres d hspec₁.2
                    · exact hrest.2 d hd (by assumption)
          · rw [if_neg hwhite] at h
            have hblack : colorOf st dep = 2 := by
              have := hb dep
              omega
            have hrest := ih st st' hb h
            refine ⟨hrest.1, ?_⟩
            intro d hd hcd
            rcases List.mem_cons.mp hd with rfl | hd
            · exact hrest.1.blackPres d hblack
            · exact hrest.2 d hd hcd
      · rw [if_pos (by simpa using hc)] at h
        have hrest := ih st st' hb h
        refine ⟨hrest.1, ?_⟩
        intro d hd hcd
        rcases List.mem_cons.mp hd with rfl | hd
        · exact absurd hcd hc
        · exact hrest.2 d hd hcd

theorem dfsVisit_ok (g : Graph) : ∀ fuel, VisitOK g (dfsVisit g fuel) := by
  intro fuel
  induction fuel with
  | zero =>
      intro st dep st' _ _ h
      rw [dfsVisit] at h
      cases h
  | succ fuel ih =>
      intro st node st' hwhite hb h
      rw [dfsVisit] at h
      cases hdd : dfsDeps g (dfsVisit g fuel) node (edgesOf g node)
          (grayify st node) with
      | none => rw [hdd] at h; cases h
      | some r =>
          cases r with
          | error e => rw [hdd] at h; cases h
          | ok st₁ =>
              rw [hdd] at h
              cases h
              have hgb : colorBound (grayify st node) := by
                intro x
                by_cases hx : node = x
                · subst hx; rw [colorOf_grayify_self]; omega
                · rw [colorOf_grayify_ne _ _ _ hx]; exact hb x
              have hdeps := dfsDeps_ok g (dfsVisit g fuel) node ih
                (edgesOf g node) (grayify st node) st₁ hgb hdd
              have hspec := hdeps.1
              have hgray₁ : colorOf st₁ node = 1 :=
                hspec.grayPres node (colorOf_grayify_self st node)
              have hAllDeps : ∀ d, resStep g node d → colorOf st₁ d = 2 :=
                fun d hs => hdeps.2 d hs.1 hs.2
              constructor
              · constructor
                · intro x
                  by_cases hx : node = x
                  · subst hx
                    rw [hwhite, colorOf_blacken_self]
                    omega
                  · rw [colorOf_blacken_ne _ _ _ hx,
                        ← colorOf_grayify_ne st node x hx]
                    exact hspec.mono x
                · intro x hx
                  have hnx : node ≠ x := fun e => by
                    rw [← e] at hx; rw [hwhite] at hx; cases hx
                  rw [colorOf_blacken_ne _ _ _ hnx]
                  exact hspec.grayPres x
                    (by rwa [colorOf_grayify_ne _ _ _ hnx])
                · intro x hx
                  have hnx : node ≠ x := fun e => by
                    rw [← e] at hx; rw [hwhite] at hx; cases hx
                  rw [colorOf_blacken_ne _ _ _ hnx]
                  exact hspec.blackPres x
                    (by rwa [colorOf_grayify_ne _ _ _ hnx])
                · intro x hx
                  by_cases hnx : node = x
                  · subst hnx
                    rw [colorOf_blacken_self] at hx
                    cases hx
                  · rw [colorOf_blacken_ne _ _ _ hnx] at hx
                    have := hspec.noNewGray x hx
                    rwa [colorOf_grayify_ne _ _ _ hnx] at this
                · intro _ x
                  by_cases hnx : node = x
                  · subst hnx; rw [colorOf_blacken_self]
                  · rw [colorOf_blacken_ne _ _ _ hnx]
                    exact hspec.boundPres hgb x
                · rintro ⟨hbi, hnc⟩
                  have hsame : ∀ y, colorOf st y = 2 ↔
                      colorOf (grayify st node) y = 2 := by
                    intro y
                    by_cases hy : node = y
                    · subst hy
                      rw [hwhite, colorOf_grayify_self]
                      constructor <;> intro hh <;> cases hh
                    · rw [colorOf_grayify_ne _ _ _ hy]
                  have hinv₁ := hspec.invPres
                    ⟨blackInv_congr g hsame hbi, noBlackCycle_congr g hsame hnc⟩
                  obtain ⟨hbi₁, hnc₁⟩ := hinv₁
                  have hreachBlack : ∀ z, Reaches g node z → colorOf st₁ z = 2 := by
                    intro z hz
                    induction hz with
                    | single hs => exact hAllDeps _ hs
                    | tail _ hstep ihz => exact hbi₁ _ _ ihz hstep
                  constructor
                  · intro x d hx hs
                    by_cases hnd : node = d
                    · rw [← hnd, colorOf_blacken_self]
                    · rw [colorOf_blacken_ne _ _ _ hnd]
                      by_cases hnx : node = x
                      · exact hAllDeps d (by rwa [← hnx] at hs)
                      · rw [colorOf_blacken_ne _ _ _ hnx] at hx
                        exact hbi₁ x d hx hs
                  · intro x hx hr
                    by_cases hnx : node = x
                    · have h2 := hreachBlack node (by rwa [← hnx] at hr)
                      rw [hgray₁] at h2
                      cases h2
                    · rw [colorOf_blacken_ne _ _ _ hnx] at hx
                      exact hnc₁ x hx hr
              · exact colorOf_blacken_self st₁ node

/-! ## DFS soundness: an error implies a resolvable cycle -/

/-- Specification of an erroring recursive `dfs` call: if every gray node
reaches the call's argument, an error can only mean a cycle. -/
def VisitErr (g : Graph)
    (visit : DfsState → String → Option (Except String DfsState)) : Prop :=
  ∀ st dep e, colorOf st dep = 0 → colorBound st →
    (∀ q, colorOf st q = 1 → Reaches g q dep) →
    visit st dep = some (.error e) → ∃ w, Reaches g w w

theorem dfsDeps_err (g : Graph)
    (visit : DfsState → String → Option (Except String DfsState))
    (node : String) (hvOK : VisitOK g visit) (hvErr : VisitErr g visit) :
    ∀ deps st e, colorBound st →
      (∀ d ∈ deps, d ∈ edgesOf g node) →
      (∀ q, colorOf st q = 1 → q = node ∨ Reaches g q node) →
      dfsDeps g visit node deps st = some (.error e) →
      ∃ w, Reaches g w w := by
  intro deps
  induction deps with
  | nil =>
      intro st e _ _ _ h
      rw [dfsDeps] at h
      cases h
  | cons dep rest ih =>
      intro st e hb hdeps hpre h
      rw [dfsDeps] at h
      by_cases hc : containsNode g dep = true
      · rw [if_neg (by simpa using hc)] at h
        have hstep : resStep g node dep :=
          ⟨hdeps dep (List.mem_cons_self _ _), hc⟩
        by_cases hgray : colorOf st dep = 1
        · rcases hpre dep hgray with heq | hreach
          · exact ⟨node, Relation.TransGen.single (heq ▸ hstep)⟩
          · exact ⟨dep, Relation.TransGen.tail hreach hstep⟩
        · rw [if_neg hgray] at h
          by_cases hwhite : colorOf st dep = 0
          · rw [if_pos hwhite] at h
            cases hv0 : visit (setParent st dep node) dep with
            | none => rw [hv0] at h; cases h
            | some r =>
                cases r with
                | error e' =>
                    refine hvErr (setParent st dep node) dep e' hwhite hb ?_ hv0
                    intro q hq
                    rw [colorOf_setParent] at hq
                    rcases hpre q hq with heq | hreach
                    · exact heq ▸ Relation.TransGen.single hstep
                    · exact Relation.TransGen.tail hreach hstep
                | ok st₁ =>
                    rw [hv0] at h
                    have hspec₁ := hvOK (setParent st dep node) dep st₁ hwhite hb hv0
                    have hstep₁ : StepSpec g st st₁ :=
                      stepSpec_congr (colorOf_setParent st dep node)
                        (fun _ => rfl) hspec₁.1
                    refine ih st₁ e (hstep₁.boundPres hb)
                      (fun d hd => hdeps d (List.mem_cons_of_mem _ hd)) ?_ h
                    intro q hq
                    exact hpre q (hstep₁.noNewGray q hq)
          · rw [if_neg hwhite] at h
            exact ih st e hb (fun d hd => hdeps d (List.mem_cons_of_mem _ hd))
              hpre h
      · rw [if_pos (by simpa using hc)] at h
        exact ih st e hb (fun d hd => hdeps d (List.mem_cons_of_mem _ hd)) hpre h

theorem dfsVisit_err (g : Graph) : ∀ fuel, VisitErr g (dfsVisit g fuel) := by
  intro fuel
  induction fuel with
  | zero =>
      intro st dep e _ _ _ h
      rw [dfsVisit] at h
      cases h
  | succ fuel ih =>
      intro st node e hwhite hb hpre h
      rw [dfsVisit] at h
      cases hdd : dfsDeps g (dfsVisit g fuel) node (edgesOf g node)
          (grayify st node) with
      | none => rw [hdd] at h; cases h
      | some r =>
          cases r with
          | ok st₁ => rw [hdd] at h; cases h
          | error e' =>
              have hgb : colorBound (grayify st node) := by
                intro x
                by_cases hx : node = x
                · rw [← hx, colorOf_grayify_self]; omega
                · rw [colorOf_grayify_ne _ _ _ hx]; exact hb x
              refine dfsDeps_err g (dfsVisit g fuel) node (dfsVisit_ok g fuel)
                ih (edgesOf g node) (grayify st node) e' hgb (fun d hd => hd)
                ?_ hdd
              intro q hq
              by_cases hx : node = q
              · exact Or.inl hx.symm
              · rw [colorOf_grayify_ne _ _ _ hx] at hq
                exact Or.inr (hpre q hq)

/-! ## DFS fuel sufficiency -/

/-- Number of white nodes among the graph's keys. -/
def whiteCount (g : Graph) (st : DfsState) : Nat :=
  (keys g).countP fun id => colorOf st id = 0

theorem whiteCount_le (g : Graph) (st : DfsState) :
    whiteCount g st ≤ (keys g).length :=
  List.countP_le_length _

theorem whiteCount_mono (g : Graph) (st st' : DfsState)
    (h : ∀ x, colorOf st x ≤ colorOf st' x) :
    whiteCount g st' ≤ whiteCount g st := by
  refine List.countP_mono_left ?_
  intro x _ hx
  have := h x
  simp only [decide_eq_true_eq] at hx ⊢
  omega

theorem whiteCount_grayify (g : Graph) (st : DfsState) (node : String)
    (hnd : (keys g).Nodup) (hmem : node ∈ keys g)
    (hwhite : colorOf st node = 0) :
    whiteCount g (grayify st node) + 1 = whiteCount g st := by
  have hperm := List.perm_cons_erase hmem
  rw [whiteCount, whiteCount, hperm.countP_eq, hperm.countP_eq,
    List.countP_cons, List.countP_cons]
  have h₁ : (decide (colorOf (grayify st node) node = 0)) = false := by
    simp [colorOf_grayify_self]
  have h₂ : (decide (colorOf st node = 0)) = true := by simp [hwhite]
  rw [h₁, h₂]
  have hcong : ((keys g).erase node).countP
      (fun id => colorOf (grayify st node) id = 0) =
      ((keys g).erase node).countP (fun id => colorOf st id = 0) := by
    refine List.countP_congr ?_
    intro x hx
    have hxne : x ≠ node := ((hnd.mem_erase_iff).mp hx).1
    rw [colorOf_grayify_ne _ _ _ (Ne.symm hxne)]
  rw [hcong]
  simp

theorem dfsDeps_fuel (g : Graph)
    (visit : DfsState → String → Option (Except String DfsState))
    (node : String) (f : Nat) (hvOK : VisitOK g visit)
    (hvT : ∀ st dep, colorOf st dep = 0 → dep ∈ keys g → colorBound st →
      whiteCount g st ≤ f → visit st dep ≠ none) :
    ∀ deps st, colorBound st → whiteCount g st ≤ f →
      dfsDeps g visit node deps st ≠ none := by
  intro deps
  induction deps with
  | nil =>
      intro st _ _ h
      rw [dfsDeps] at h
      cases h
  | cons dep rest ih =>
      intro st hb hwc h
      rw [dfsDeps] at h
      by_cases hc : containsNode g dep = true
      · rw [if_neg (by simpa using hc)] at h
        by_cases hgray : colorOf st dep = 1
        · rw [if_pos hgray] at h
          cases h
        · rw [if_neg hgray] at h
          by_cases hwhite : colorOf st dep = 0
          · rw [if_pos hwhite] at h
            cases hv0 : visit (setParent st dep node) dep with
            | none =>
                refine hvT (setParent st dep node) dep hwhite
                  ((containsNode_iff_mem_keys g dep).mp hc)
                  (fun x => hb x) ?_ hv0
                exact hwc
            | some r =>
                cases r with
                | error e => rw [hv0] at h; cases h
                | ok st₁ =>
                    rw [hv0] at h
                    have hspec₁ := hvOK (setParent st dep node) dep st₁ hwhite hb hv0
                    have hstep₁ : StepSpec g st st₁ :=
                      stepSpec_congr (colorOf_setParent st dep node)
                        (fun _ => rfl) hspec₁.1
                    exact ih st₁ (hstep₁.boundPres hb)
                      (le_trans (whiteCount_mono g st st₁ hstep₁.mono) hwc) h
          · rw [if_neg hwhite] at h
            exact ih st hb hwc h
      · rw [if_pos (by simpa using hc)] at h
        exact ih st hb hwc h

theorem dfsVisit_fuel (g : Graph) (hnd : (keys g).Nodup) :
    ∀ f st node, node ∈ keys g → colorOf st node = 0 → colorBound st →
      whiteCount g st ≤ f → dfsVisit g f st node ≠ none := by
  intro f
  induction f with
  | zero =>
      intro st node hmem hwhite _ hwc
      exfalso
      have : 0 < whiteCount g st := by
        rw [whiteCount, List.countP_pos_iff]
        exact ⟨node, hmem, by simp [hwhite]⟩
      omega
  | succ f ih =>
      intro st node hmem hwhite hb hwc h
      rw [dfsVisit] at h
      cases hdd : dfsDeps g (dfsVisit g f) node (edgesOf g node)
          (grayify st node) with
      | none =>
          have hgb : colorBound (grayify st node) := by
            intro x
            by_cases hx : node = x
            · rw [← hx, colorOf_grayify_self]; omega
            · rw [colorOf_grayify_ne _ _ _ hx]; exact hb x
          have hwc' : whiteCount g (grayify st node) ≤ f := by
            have := whiteCount_grayify g st node hnd hmem hwhite
            omega
          exact dfsDeps_fuel g (dfsVisit g f) node f (dfsVisit_ok g f)
            (fun st₀ dep h₀ h₁ h₂ h₃ => ih st₀ dep h₁ h₀ h₂ h₃)
            (edgesOf g node) (grayify st node) hgb hwc' hdd
      | some r =>
          cases r with
          | error e => rw [hdd] at h; cases h
          | ok st₁ => rw [hdd] at h; cases h

/-! ## `ValidateAcyclic` succeeds exactly on acyclic graphs -/

theorem validateLoop_ok_of_acyclic (g : Graph) (hnd : (keys g).Nodup)
    (hacy : AcyclicG g) :
    ∀ order st, (∀ id ∈ order, id ∈ keys g) → colorBound st → noGray st →
      validateLoop g ((keys g).length + 1) order st = .ok () := by
  intro order
  induction order with
  | nil => intro st _ _ _; rw [validateLoop]
  | cons id rest ih =>
      intro st hmem hb hng
      rw [validateLoop]
      by_cases hwhite : colorOf st id = 0
      · rw [if_pos hwhite]
        cases hv : dfsVisit g ((keys g).length + 1) st id with
        | none =>
            exact absurd hv (dfsVisit_fuel g hnd _ st id
              (hmem id (List.mem_cons_self _ _)) hwhite hb
              (by have := whiteCount_le g st; omega))
        | some r =>
            cases r with
            | error e =>
                exfalso
                rcases dfsVisit_err g _ st id e hwhite hb
                  (fun q hq => absurd hq (hng q)) hv with ⟨w, hw⟩
                exact hacy w hw
            | ok st' =>
                have hspec := dfsVisit_ok g _ st id st' hwhite hb hv
                exact ih st' (fun i hi => hmem i (List.mem_cons_of_mem _ hi))
                  (hspec.1.boundPres hb)
                  (fun q hq => hng q (hspec.1.noNewGray q hq))
      · rw [if_neg hwhite]
        exact ih st (fun i hi => hmem i (List.mem_cons_of_mem _ hi)) hb hng

theorem validateLoop_ok_no_cycle (g : Graph) (f : Nat) :
    ∀ order st, validateLoop g f order st = .ok () →
      colorBound st → blackInv g st → noBlackCycle g st → noGray st →
      ∀ x ∈ order, ¬ Reaches g x x := by
  intro order
  induction order with
  | nil => intro st _ _ _ _ _ x hx; cases hx
  | cons id rest ih =>
      intro st hok hb hbi hnc hng x hx
      rw [validateLoop] at hok
      by_cases hwhite : colorOf st id = 0
      · rw [if_pos hwhite] at hok
        cases hv : dfsVisit g f st id with
        | none => rw [hv] at hok; cases hok
        | some r =>
            cases r with
            | error e => rw [hv] at hok; cases hok
            | ok st' =>
                rw [hv] at hok
                have hspec := dfsVisit_ok g f st id st' hwhite hb hv
                have hinv' := hspec.1.invPres ⟨hbi, hnc⟩
                rcases List.mem_cons.mp hx with rfl | hx
                · exact hinv'.2 x hspec.2
                · exact ih st' hok (hspec.1.boundPres hb) hinv'.1 hinv'.2
                    (fun q hq => hng q (hspec.1.noNewGray q hq)) x hx
      · rw [if_neg hwhite] at hok
        rcases List.mem_cons.mp hx with rfl | hx
        · have hblack : colorOf st x = 2 := by
            have h1 := hng x
            have h2 := hb x
            omega
          exact hnc x hblack
        · exact ih st hok hb hbi hnc hng x hx

/-- From a reachability witness, the first step out of the start node. -/
theorem reaches_first_step (g : Graph) (a b : String)
    (h : Reaches g a b) : ∃ c, resStep g a c := by
  induction h with
  | single h => exact ⟨_, h⟩
  | tail _ _ ih => exact ih

theorem initial_colorBound : colorBound ⟨[], []⟩ := by
  intro x
  simp [colorOf, mapGetD, mapGet?]

theorem initial_noGray : noGray ⟨[], []⟩ := by
  intro x
  simp [colorOf, mapGetD, mapGet?]

theorem initial_blackInv (g : Graph) : blackInv g ⟨[], []⟩ := by
  intro x d hx
  simp [colorOf, mapGetD, mapGet?] at hx

theorem initial_noBlackCycle (g : Graph) : noBlackCycle g ⟨[], []⟩ := by
  intro x hx
  simp [colorOf, mapGetD, mapGet?] at hx

/-- `ValidateAcyclic`, run with any map-iteration order, returns success
exactly when the resolvable dependency edges of the graph built from
`tasks` form a DAG. -/
theorem validateAcyclic_ok_iff (tasks : List Task) (order : List String)
    (horder : order.Perm (keys (BuildFromTasks tasks))) :
    ValidateAcyclic (BuildFromTasks tasks) order = .ok () ↔
      AcyclicG (BuildFromTasks tasks) := by
  constructor
  · intro hok x hx
    rcases reaches_first_step _ _ _ hx with ⟨c, hc⟩
    have hxkeys : x ∈ keys (BuildFromTasks tasks) := by
      rw [← containsNode_iff_mem_keys]
      refine edges_nonempty_mem_keys tasks x ?_
      intro he
      have hmem := hc.1
      rw [he] at hmem
      cases hmem
    exact validateLoop_ok_no_cycle _ _ order ⟨[], []⟩ hok initial_colorBound
      (initial_blackInv _) (initial_noBlackCycle _) initial_noGray x
      (horder.mem_iff.mpr hxkeys) hx
  · intro hacy
    exact validateLoop_ok_of_acyclic _ (keys_build_nodup tasks) hacy order
      ⟨[], []⟩ (fun id hid => horder.subset hid) initial_colorBound
      initial_noGray

/-- `.ok ()` and `.error` are the only shapes of `ValidateAcyclic`'s result. -/
theorem except_unit_cases (r : Except String Unit) :
    r = .ok () ∨ ∃ e, r = .error e := by
  cases r with
  | ok u => cases u; exact Or.inl rfl
  | error e => exact Or.inr ⟨e, rfl⟩

/-! ## Kahn's algorithm: decrement accounting

`recvd g id l` is the total number of decrements `inDegree[id]` has received
once the nodes in `l` have been popped and their reverse-adjacency lists
processed; `counter g id l` is the current value of `inDegree[id]`. -/

def recvd (g : Graph) (id : String) (l : List String) : Nat :=
  (l.map fun x => (revOf g x).count id).sum

def counter (g : Graph) (id : String) (l : List String) : Int :=
  (resolvableCount g id : Int) - (recvd g id l : Int)

theorem recvd_append (g : Graph) (id : String) (l₁ l₂ : List String) :
    recvd g id (l₁ ++ l₂) = recvd g id l₁ + recvd g id l₂ := by
  rw [recvd, List.map_append, List.sum_append]
  rfl

theorem recvd_singleton (g : Graph) (id x : String) :
    recvd g id [x] = (revOf g x).count id := by
  simp [recvd]

/-- How many times `n` occurs in a reverse-adjacency list of the built
graph: once per occurrence of `d` in the dependency list of each task whose
id is `n`. -/
theorem count_revOf_build (tasks : List Task) (n d : String) :
    (revOf (BuildFromTasks tasks) d).count n =
      ((tasks.filter fun t => t.id = n).map
        fun t => t.dependsOn.count d).sum := by
  rw [revOf_build]
  rw [List.flatMap, List.count_flatten, List.map_map]
  induction tasks with
  | nil => simp
  | cons t ts ih =>
      rw [List.map_cons, List.sum_cons, ih]
      by_cases h : t.id = n
      · rw [List.filter_cons_of_pos (by simp [h]), List.map_cons,
          List.sum_cons]
        congr 1
        simp [List.count_replicate, h]
      · rw [List.filter_cons_of_neg (by simp [h])]
        simp [List.count_replicate, h]

/-- Stale reverse edges can only overcount: a node's reverse-adjacency
entries cover at least the edge list of the task that finally owns the id. -/
theorem count_revOf_ge (tasks : List Task) (n d : String)
    (hn : n ∈ keys (BuildFromTasks tasks)) :
    (edgesOf (BuildFromTasks tasks) n).count d ≤
      (revOf (BuildFromTasks tasks) d).count n := by
  rw [count_revOf_build]
  have hn' := (mem_keys_build tasks n).mp hn
  rcases List.mem_map.mp hn' with ⟨t₀, ht₀, rfl⟩
  cases hlt : lastTask tasks t₀.id with
  | none =>
      exfalso
      rw [lastTask, List.find?_eq_none] at hlt
      exact hlt t₀ (List.mem_reverse.mpr ht₀) (by simp)
  | some t =>
      rw [edgesOf_build, hlt]
      have hmem : t ∈ tasks.filter fun t' => t'.id = t₀.id := by
        rw [List.mem_filter]
        exact ⟨lastTask_mem tasks _ t hlt, by simp [lastTask_id tasks _ t hlt]⟩
      show List.count d t.dependsOn ≤ _
      exact List.single_le_sum (fun x _ => Nat.zero_le x) _
        (List.mem_map.mpr ⟨t, hmem, rfl⟩)

/-- With pairwise-distinct task ids the reverse adjacency is exact: `n`
occurs in `rev[d]` exactly as often as `d` occurs in `edges[n]`. -/
theorem count_revOf_eq (tasks : List Task) (n d : String)
    (hids : (tasks.map Task.id).Nodup) (hn : n ∈ keys (BuildFromTasks tasks)) :
    (revOf (BuildFromTasks tasks) d).count n =
      (edgesOf (BuildFromTasks tasks) n).count d := by
  have hn' := (mem_keys_build tasks n).mp hn
  rcases List.mem_map.mp hn' with ⟨t₀, ht₀, rfl⟩
  -- with distinct ids the filter has exactly one element, t₀
  have hfilter : (tasks.filter fun t => t.id = t₀.id) = [t₀] := by
    clear hn hn'
    induction tasks with
    | nil => cases ht₀
    | cons t ts ih =>
        rw [List.map_cons, List.nodup_cons] at hids
        rcases List.mem_cons.mp ht₀ with rfl | hmem
        · rw [List.filter_cons_of_pos (by simp)]
          congr 1
          rw [List.filter_eq_nil_iff]
          intro a ha ha'
          exact hids.1 (List.mem_map.mpr ⟨a, ha, by simpa using ha'.symm⟩)
        · rw [List.filter_cons_of_neg, ih hids.2 hmem]
          simp only [decide_eq_true_eq]
          intro he
          exact hids.1 (List.mem_map.mpr ⟨t₀, hmem, he.symm⟩)
  have hlast : lastTask tasks t₀.id = some t₀ := by
    have hsome : (tasks.reverse.find? fun t => t.id = t₀.id).isSome := by
      rw [List.find?_isSome]
      exact ⟨t₀, List.mem_reverse.mpr ht₀, by simp⟩
    rcases Option.isSome_iff_exists.mp hsome with ⟨u, hu⟩
    have humem : u ∈ tasks := List.mem_reverse.mp (List.mem_of_find?_eq_some hu)
    have huid : u.id = t₀.id := by simpa using List.find?_some hu
    have hu' : u ∈ tasks.filter fun t => t.id = t₀.id :=
      List.mem_filter.mpr ⟨humem, by simp [huid]⟩
    rw [hfilter] at hu'
    rw [lastTask, hu, List.mem_singleton.mp hu']
  rw [count_revOf_build, hfilter, edgesOf_build, hlast]
  simp

theorem mem_sortStrings (l : List String) (x : String) :
    x ∈ sortStrings l ↔ x ∈ l :=
  (List.perm_insertionSort _ l).mem_iff

theorem nodup_sortStrings (l : List String) (h : l.Nodup) :
    (sortStrings l).Nodup :=
  ((List.perm_insertionSort _ l).nodup_iff).mpr h

/-- Loop invariant of `kahnLoop` between iterations. -/
structure KahnInv (g : Graph) (inDeg : List (String × Int))
    (queue result : List String) : Prop where
  nodR : result.Nodup
  subR : ∀ x ∈ result, x ∈ keys g
  nodQ : queue.Nodup
  subQ : ∀ x ∈ queue, x ∈ keys g
  disj : ∀ x ∈ queue, x ∉ result
  deg : ∀ id ∈ keys g, mapGetD inDeg id 0 = counter g id result
  mem : ∀ id ∈ keys g, (id ∈ queue ∨ id ∈ result) ↔ counter g id result ≤ 0
  topo : ∀ i (h : i < result.length),
    counter g (result.get ⟨i, h⟩) (result.take i) ≤ 0

/-- Invariant of the inner `for _, dependent := range g.rev[node]` fold:
`pr` is the already-processed prefix of the reverse-adjacency list of the
just-popped `node`. -/
structure FoldInv (g : Graph) (node : String) (result : List String)
    (pr : List String) (inDeg : List (String × Int)) (q : List String) :
    Prop where
  nodQ : q.Nodup
  subQ : ∀ x ∈ q, x ∈ keys g
  disj : ∀ x ∈ q, x ∉ result
  nnode : node ∉ q
  deg : ∀ id ∈ keys g,
    mapGetD inDeg id 0 = counter g id result - (pr.count id : Int)
  mem : ∀ id ∈ keys g, (id ∈ q ∨ id ∈ result ∨ id = node) ↔
    counter g id result - (pr.count id : Int) ≤ 0

theorem count_append_singleton_self (pr : List String) (d : String) :
    (pr ++ [d]).count d = pr.count d + 1 := by
  rw [List.count_append]
  simp

theorem count_append_singleton_ne (pr : List String) (d id : String)
    (h : d ≠ id) : (pr ++ [d]).count id = pr.count id := by
  rw [List.count_append]
  simp [List.count_cons, h]

theorem foldDependents_spec (g : Graph) (node : String) (result : List String) :
    ∀ (suf pr : List String) (inDeg : List (String × Int)) (q : List String),
      FoldInv g node result pr inDeg q →
      FoldInv g node result (pr ++ suf)
        ((suf.foldl (processDependent g) (inDeg, q)).1)
        ((suf.foldl (processDependent g) (inDeg, q)).2) := by
  intro suf
  induction suf with
  | nil => intro pr inDeg q hinv; simpa using hinv
  | cons d suf' ih =>
      intro pr inDeg q hinv
      rw [List.foldl_cons]
      have hstep : FoldInv g node result (pr ++ [d])
          (processDependent g (inDeg, q) d).1
          (processDependent g (inDeg, q) d).2 := by
        by_cases hc : containsNode g d = true
        · have hdk : d ∈ keys g := (containsNode_iff_mem_keys g d).mp hc
          rw [processDependent, if_neg (by simpa using hc)]
          simp only
          have hd1 : ((pr ++ [d]).count d : Int) = (pr.count d : Int) + 1 := by
            rw [count_append_singleton_self]
            push_cast
            ring
          have hdval : mapGetD inDeg d 0 - 1 =
              counter g d result - ((pr ++ [d]).count d : Int) := by
            rw [hinv.deg d hdk, hd1]
            ring
          by_cases hz : mapGetD inDeg d 0 - 1 = 0
          · rw [if_pos hz]
            simp only
            have hdold : counter g d result - (pr.count d : Int) = 1 := by
              have h1 := hinv.deg d hdk
              omega
            have hdnot := hinv.mem d hdk
            rw [hdold] at hdnot
            have hdfree : ¬(d ∈ q ∨ d ∈ result ∨ d = node) := by
              intro h
              have := hdnot.mp h
              omega
            push_neg at hdfree
            obtain ⟨hdq, hdr, hdn⟩ := hdfree
            refine ⟨?_, ?_, ?_, ?_, ?_, ?_⟩
            · refine nodup_sortStrings _ ?_
              rw [List.nodup_append]
              refine ⟨hinv.nodQ, List.nodup_singleton d, ?_⟩
              intro x hx hx'
              rw [List.mem_singleton] at hx'
              exact hdq (hx' ▸ hx)
            · intro x hx
              rcases List.mem_append.mp ((mem_sortStrings _ x).mp hx) with hx | hx
              · exact hinv.subQ x hx
              · rw [List.mem_singleton.mp hx]; exact hdk
            · intro x hx
              rcases List.mem_append.mp ((mem_sortStrings _ x).mp hx) with hx | hx
              · exact hinv.disj x hx
              · rw [List.mem_singleton.mp hx]; exact hdr
            · intro hx
              rcases List.mem_append.mp ((mem_sortStrings _ node).mp hx) with hx | hx
              · exact hinv.nnode hx
              · exact hdn (List.mem_singleton.mp hx).symm
            · intro id hid
              by_cases hde : d = id
              · rw [← hde, mapGetD_insert_self]
                exact hdval
              · rw [mapGetD_insert_ne _ _ _ _ _ hde, hinv.deg id hid,
                  count_append_singleton_ne pr d id hde]
            · intro id hid
              by_cases hde : d = id
              · subst hde
                rw [hd1]
                constructor
                · intro _
                  omega
                · intro _
                  left
                  rw [mem_sortStrings]
                  exact List.mem_append.mpr (Or.inr (List.mem_singleton_self d))
              · rw [count_append_singleton_ne pr d id hde,
                  ← hinv.mem id hid]
                constructor
                · rintro (hx | hx | hx)
                  · rcases List.mem_append.mp ((mem_sortStrings _ id).mp hx)
                        with hx | hx
                    · exact Or.inl hx
                    · exact absurd (List.mem_singleton.mp hx).symm hde
                  · exact Or.inr (Or.inl hx)
                  · exact Or.inr (Or.inr hx)
                · rintro (hx | hx)
                  · refine Or.inl ?_
                    rw [mem_sortStrings]
                    exact List.mem_append.mpr (Or.inl hx)
                  · exact Or.inr hx
          · rw [if_neg hz]
            simp only
            refine ⟨hinv.nodQ, hinv.subQ, hinv.disj, hinv.nnode, ?_, ?_⟩
            · intro id hid
              by_cases hde : d = id
              · rw [← hde, mapGetD_insert_self]
                exact hdval
              · rw [mapGetD_insert_ne _ _ _ _ _ hde, hinv.deg id hid,
                  count_append_singleton_ne pr d id hde]
            · intro id hid
              by_cases hde : d = id
              · subst hde
                have h1 := hinv.deg d hid
                have hold := hinv.mem d hid
                rw [hd1]
                constructor
                · intro h
                  have := hold.mp h
                  omega
                · intro h
                  refine hold.mpr ?_
                  omega
              · rw [count_append_singleton_ne pr d id hde]
                exact hinv.mem id hid
        · rw [processDependent, if_pos (by simpa using hc)]
          have hdk : d ∉ keys g := fun h =>
            hc ((containsNode_iff_mem_keys g d).mpr h)
          have hcnt : ∀ id ∈ keys g, (pr ++ [d]).count id = pr.count id := by
            intro id hid
            refine count_append_singleton_ne pr d id ?_
            intro he
            exact absurd (he ▸ hid) hdk
          refine ⟨hinv.nodQ, hinv.subQ, hinv.disj, hinv.nnode, ?_, ?_⟩
          · intro id hid
            rw [hcnt id hid]
            exact hinv.deg id hid
          · intro id hid
            rw [hcnt id hid]
            exact hinv.mem id hid
      have := ih (pr ++ [d]) _ _ hstep
      rwa [List.append_assoc, List.singleton_append] at this

theorem counter_append_singleton (g : Graph) (id : String) (l : List String)
    (x : String) : counter g id (l ++ [x]) =
      counter g id l - ((revOf g x).count id : Int) := by
  rw [counter, counter, recvd_append, recvd_singleton]
  push_cast
  ring

theorem kahnLoop_spec (g : Graph) :
    ∀ (fuel : Nat) (inDeg : List (String × Int)) (queue result : List String),
      KahnInv g inDeg queue result →
      (keys g).length < fuel + result.length →
      ∃ l, kahnLoop g fuel inDeg queue result = some l ∧
        result <+: l ∧ l.Nodup ∧ (∀ x ∈ l, x ∈ keys g) ∧
        (∀ id ∈ keys g, (id ∈ l ↔ counter g id l ≤ 0)) ∧
        (∀ i (h : i < l.length), counter g (l.get ⟨i, h⟩) (l.take i) ≤ 0) := by
  intro fuel
  induction fuel with
  | zero =>
      intro inDeg queue result hinv hlen
      cases queue with
      | nil =>
          refine ⟨result, rfl, List.prefix_refl result, hinv.nodR, hinv.subR,
            ?_, hinv.topo⟩
          intro id hid
          rw [← hinv.mem id hid]
          simp
      | cons node rest =>
          exfalso
          have hsub : (node :: result).Subperm (keys g) := by
            refine List.subperm_of_subset ?_ ?_
            · rw [List.nodup_cons]
              exact ⟨hinv.disj node (List.mem_cons_self _ _), hinv.nodR⟩
            · intro x hx
              rcases List.mem_cons.mp hx with rfl | hx
              · exact hinv.subQ x (List.mem_cons_self _ _)
              · exact hinv.subR x hx
          have := hsub.length_le
          simp at this
          omega
  | succ fuel ih =>
      intro inDeg queue result hinv hlen
      cases queue with
      | nil =>
          refine ⟨result, rfl, List.prefix_refl result, hinv.nodR, hinv.subR,
            ?_, hinv.topo⟩
          intro id hid
          rw [← hinv.mem id hid]
          simp
      | cons node rest =>
          have hnodek : node ∈ keys g := hinv.subQ node (List.mem_cons_self _ _)
          have hnoder : node ∉ result := hinv.disj node (List.mem_cons_self _ _)
          have hnodup := List.nodup_cons.mp hinv.nodQ
          have hfold0 : FoldInv g node result [] inDeg rest := by
            refine ⟨hnodup.2, ?_, ?_, hnodup.1, ?_, ?_⟩
            · intro x hx
              exact hinv.subQ x (List.mem_cons_of_mem _ hx)
            · intro x hx
              exact hinv.disj x (List.mem_cons_of_mem _ hx)
            · intro id hid
              simpa using hinv.deg id hid
            · intro id hid
              have := hinv.mem id hid
              simp only [List.count_nil, Nat.cast_zero, sub_zero]
              rw [← this]
              constructor
              · rintro (hx | hx | hx)
                · exact Or.inl (List.mem_cons_of_mem _ hx)
                · exact Or.inr hx
                · exact Or.inl (hx ▸ List.mem_cons_self _ _)
              · rintro (hx | hx)
                · rcases List.mem_cons.mp hx with rfl | hx
                  · exact Or.inr (Or.inr rfl)
                  · exact Or.inl hx
                · exact Or.inr (Or.inl hx)
          have hfold := foldDependents_spec g node result (revOf g node) []
            inDeg rest hfold0
          rw [List.nil_append] at hfold
          have hcntr : ∀ id, counter g id (result ++ [node]) =
              counter g id result - (((revOf g node).count id : Nat) : Int) :=
            fun id => counter_append_singleton g id result node
          have hmemq : node ∈ (node :: rest) := List.mem_cons_self _ _
          have hc0 : counter g node result ≤ 0 :=
            (hinv.mem node hnodek).mp (Or.inl hmemq)
          have hinv' : KahnInv g
              ((List.foldl (processDependent g) (inDeg, rest) (revOf g node)).1)
              ((List.foldl (processDependent g) (inDeg, rest) (revOf g node)).2)
              (result ++ [node]) := by
            refine ⟨?_, ?_, hfold.nodQ, hfold.subQ, ?_, ?_, ?_, ?_⟩
            · rw [List.nodup_append]
              exact ⟨hinv.nodR, List.nodup_singleton node, by
                intro x hx hx'
                rw [List.mem_singleton] at hx'
                exact hnoder (hx' ▸ hx)⟩
            · intro x hx
              rcases List.mem_append.mp hx with hx | hx
              · exact hinv.subR x hx
              · rw [List.mem_singleton.mp hx]
                exact hnodek
            · intro x hx
              intro hx'
              rcases List.mem_append.mp hx' with hx' | hx'
              · exact hfold.disj x hx hx'
              · exact hfold.nnode ((List.mem_singleton.mp hx') ▸ hx)
            · intro id hid
              rw [hfold.deg id hid, hcntr id]
            · intro id hid
              rw [hcntr id, ← hfold.mem id hid]
              constructor
              · rintro (hx | hx)
                · exact Or.inl hx
                · rcases List.mem_append.mp hx with hx | hx
                  · exact Or.inr (Or.inl hx)
                  · exact Or.inr (Or.inr (List.mem_singleton.mp hx))
              · rintro (hx | hx | hx)
                · exact Or.inl hx
                · exact Or.inr (List.mem_append.mpr (Or.inl hx))
                · exact Or.inr (List.mem_append.mpr (Or.inr (hx ▸
                    List.mem_singleton_self node)))
            · intro i h
              rw [List.length_append, List.length_singleton] at h
              by_cases hi : i < result.length
              · have hget : (result ++ [node]).get
                    ⟨i, by rw [List.length_append, List.length_singleton]; omega⟩ =
                    result.get ⟨i, hi⟩ := by
                  exact List.get_append i hi
                have htake : (result ++ [node]).take i = result.take i := by
                  rw [List.take_append_eq_append_take]
                  have : i - result.length = 0 := by omega
                  rw [this]
                  simp
                rw [hget, htake]
                exact hinv.topo i hi
              · have hieq : i = result.length := by omega
                subst hieq
                have hget : (result ++ [node]).get
                    ⟨result.length, by
                      rw [List.length_append, List.length_singleton]; omega⟩ =
                    node := by
                  rw [List.get_append_right] <;> simp
                have htake : (result ++ [node]).take result.length = result :=
                  List.take_left result [node]
                rw [hget, htake]
                exact hc0
          have hrec := ih _ _ _ hinv' (by
            rw [List.length_append, List.length_singleton]
            omega)
          rcases hrec with ⟨l, hl, hpre, hnod, hsub, hmem, htopo⟩
          refine ⟨l, ?_, ?_, hnod, hsub, hmem, htopo⟩
          · rw [kahnLoop]
            exact hl
          · exact List.IsPrefix.trans (List.prefix_append result [node]) hpre

theorem mapGet?_map_self {α : Type} (l : List String) (f : String → α)
    (id : String) :
    mapGet? (l.map fun x => (x, f x)) id =
      if id ∈ l then some (f id) else none := by
  induction l with
  | nil => simp [mapGet?]
  | cons x l' ih =>
      rw [List.map_cons]
      by_cases h : x = id
      · subst h
        simp [mapGet?]
      · rw [show mapGet? ((x, f x) :: l'.map fun y => (y, f y)) id =
            mapGet? (l'.map fun y => (y, f y)) id by simp [mapGet?, h]]
        rw [ih]
        by_cases hm : id ∈ l' <;> simp [hm, h, Ne.symm h]

theorem keys_length (g : Graph) : (keys g).length = g.nodes.length := by
  rw [keys, mapKeys]
  exact List.length_map _ _

/-- The state `TopologicalSort` hands to the Kahn loop satisfies the loop
invariant. -/
theorem kahnInit (g : Graph) (order : List String)
    (hnd : (keys g).Nodup) (horder : order.Perm (keys g)) :
    KahnInv g (order.map fun id => (id, (resolvableCount g id : Int)))
      (sortStrings (order.filter fun id => resolvableCount g id = 0)) [] := by
  have hond : order.Nodup := (horder.nodup_iff).mpr hnd
  have hqmem : ∀ x, x ∈ sortStrings (order.filter fun id =>
      resolvableCount g id = 0) ↔ x ∈ order ∧ resolvableCount g x = 0 := by
    intro x
    rw [mem_sortStrings, List.mem_filter]
    simp
  refine ⟨List.nodup_nil, by simp, ?_, ?_, by simp, ?_, ?_, ?_⟩
  · exact nodup_sortStrings _ (hond.filter _)
  · intro x hx
    exact horder.subset ((hqmem x).mp hx).1
  · intro id hid
    rw [mapGetD, mapGet?_map_self, if_pos (horder.mem_iff.mpr hid)]
    simp [counter, recvd]
  · intro id hid
    rw [counter]
    simp only [recvd, List.map_nil, List.sum_nil, Nat.cast_zero, sub_zero,
      List.not_mem_nil, or_false]
    rw [hqmem id]
    constructor
    · rintro ⟨_, hz⟩
      simp [hz]
    · intro hz
      have hz' : resolvableCount g id = 0 := by omega
      exact ⟨horder.mem_iff.mpr hid, hz'⟩
  · intro i h
    simp at h

/-- Sum of per-element counts over a duplicate-free index list equals a
filtered count. -/
theorem sum_count_eq_countP (l : List String) :
    ∀ E : List String, l.Nodup →
      (l.map fun x => E.count x).sum = E.countP fun e => decide (e ∈ l) := by
  induction l with
  | nil =>
      intro E _
      simp [List.countP_eq_zero]
  | cons x l' ih =>
      intro E hnd
      rw [List.nodup_cons] at hnd
      rw [List.map_cons, List.sum_cons, ih E hnd.2]
      have : ∀ F : List String,
          F.countP (fun e => decide (e ∈ x :: l')) =
            F.count x + F.countP fun e => decide (e ∈ l') := by
        intro F
        induction F with
        | nil => simp
        | cons e F' ihF =>
            rw [List.countP_cons, List.countP_cons, List.count_cons, ihF]
            by_cases hex : e = x
            · subst hex
              have : e ∉ l' := hnd.1
              simp [this]
              omega
            · simp [hex, Ne.symm hex]
              by_cases hel : e ∈ l' <;> simp [hel] <;> omega
      rw [this E]

theorem countP_lt_of_witness {p q : String → Bool} (E : List String)
    (d : String) (hd : d ∈ E) (hq : q d = true) (hp : p d = false)
    (himp : ∀ e ∈ E, p e = true → q e = true) :
    E.countP p < E.countP q := by
  induction E with
  | nil => cases hd
  | cons e E' ih =>
      rw [List.countP_cons, List.countP_cons]
      rcases List.mem_cons.mp hd with rfl | hd
      · rw [hq, hp]
        have : E'.countP p ≤ E'.countP q :=
          List.countP_mono_left fun x hx => himp x (List.mem_cons_of_mem _ hx)
        simp
        omega
      · have := ih hd fun x hx => himp x (List.mem_cons_of_mem _ hx)
        have hpq : (if p e = true then 1 else 0) ≤ if q e = true then 1 else 0 := by
          by_cases hpe : p e = true
          · rw [if_pos hpe, if_pos (himp e (List.mem_cons_self _ _) hpe)]
          · rw [if_neg hpe]
            omega
        omega

/-- The minimal-element argument: on an acyclic graph the Kahn loop drains
every node into the result. -/
theorem keys_subset_of_acyclic (tasks : List Task) (l : List String)
    (hnod : l.Nodup)
    (hmem : ∀ id ∈ keys (BuildFromTasks tasks),
      (id ∈ l ↔ counter (BuildFromTasks tasks) id l ≤ 0))
    (hacy : AcyclicG (BuildFromTasks tasks)) :
    ∀ id ∈ keys (BuildFromTasks tasks), id ∈ l := by
  set g := BuildFromTasks tasks with hg
  by_contra hcon
  push_neg at hcon
  obtain ⟨u, hu, hul⟩ := hcon
  have hfin : {x | x ∈ keys g ∧ x ∉ l}.Finite :=
    (List.finite_toSet (keys g)).subset fun x hx => hx.1
  haveI : Finite ↥{x | x ∈ keys g ∧ x ∉ l} := hfin.to_subtype
  let r : ↥{x | x ∈ keys g ∧ x ∉ l} → ↥{x | x ∈ keys g ∧ x ∉ l} → Prop :=
    fun a b => Reaches g (b : String) (a : String)
  haveI : IsTrans _ r := ⟨fun _ _ _ hab hbc => Relation.TransGen.trans hbc hab⟩
  haveI : IsIrrefl _ r := ⟨fun a ha => hacy (a : String) ha⟩
  obtain ⟨m, _, hmin⟩ := (Finite.wellFounded_of_trans_of_irrefl r).has_min
    Set.univ ⟨⟨u, hu, hul⟩, Set.mem_univ _⟩
  -- every resolvable dependency of m has already been popped
  have hdeps : ∀ e ∈ edgesOf g (m : String), containsNode g e = true → e ∈ l := by
    intro e he hce
    by_contra hel
    have hekeys : e ∈ keys g := (containsNode_iff_mem_keys g e).mp hce
    exact hmin ⟨e, hekeys, hel⟩ (Set.mem_univ _)
      (Relation.TransGen.single ⟨he, hce⟩)
  have hck : counter g (m : String) l ≤ 0 := by
    rw [counter, sub_nonpos]
    have h₁ : (resolvableCount g (m : String) : Nat) ≤ recvd g (m : String) l := by
      rw [recvd]
      calc resolvableCount g (m : String)
          = (edgesOf g (m : String)).countP (fun e => containsNode g e) :=
            (List.countP_eq_length_filter _ _).symm
        _ ≤ (edgesOf g (m : String)).countP (fun e => decide (e ∈ l)) :=
            List.countP_mono_left fun e he hp => by
              simpa using hdeps e he (by simpa using hp)
        _ = (l.map fun x => (edgesOf g (m : String)).count x).sum :=
            (sum_count_eq_countP l _ hnod).symm
        _ ≤ (l.map fun x => (revOf g x).count (m : String)).sum :=
            List.sum_le_sum fun x _ => count_revOf_ge tasks (m : String) x m.2.1
    exact_mod_cast h₁
  exact m.2.2 ((hmem (m : String) m.2.1).mpr hck)

/-- `TopologicalSort` unfolded. -/
theorem topologicalSort_eq (g : Graph) (order : List String) :
    TopologicalSort g order =
      match kahnLoop g (order.length + 1)
          (order.map fun id => (id, (resolvableCount g id : Int)))
          (sortStrings (order.filter fun id => resolvableCount g id = 0)) [] with
      | none => .error "kahn fuel exhausted"
      | some result =>
          if result.length ≠ g.nodes.length then
            .error "cycle detected: topological sort incomplete"
          else .ok result := rfl

/-- On an acyclic graph, `TopologicalSort` succeeds with a permutation of
the node keys. -/
theorem topologicalSort_perm_of_acyclic (tasks : List Task)
    (order : List String)
    (horder : order.Perm (keys (BuildFromTasks tasks)))
    (hacy : AcyclicG (BuildFromTasks tasks)) :
    ∃ l, TopologicalSort (BuildFromTasks tasks) order = .ok l ∧
      l.Perm (keys (BuildFromTasks tasks)) := by
  have hnd := keys_build_nodup tasks
  have hinit := kahnInit (BuildFromTasks tasks) order hnd horder
  have hlen : (keys (BuildFromTasks tasks)).length < (order.length + 1) +
      ([] : List String).length := by
    rw [← horder.length_eq]
    simp
  obtain ⟨l, hl, _, hnod, hsub, hmem, _⟩ :=
    kahnLoop_spec (BuildFromTasks tasks) (order.length + 1) _ _ [] hinit hlen
  have hsup := keys_subset_of_acyclic tasks l hnod hmem hacy
  have hperm : l.Perm (keys (BuildFromTasks tasks)) :=
    (List.subperm_of_subset hnod hsub).antisymm
      (List.subperm_of_subset hnd hsup)
  refine ⟨l, ?_, hperm⟩
  rw [topologicalSort_eq, hl]
  dsimp only
  rw [if_neg]
  push_neg
  rw [hperm.length_eq, keys_length]

/-- From a successful sort, recover the Kahn-loop end-state facts. -/
theorem topologicalSort_ok_facts (tasks : List Task) (order : List String)
    (l : List String)
    (horder : order.Perm (keys (BuildFromTasks tasks)))
    (hok : TopologicalSort (BuildFromTasks tasks) order = .ok l) :
    l.Nodup ∧ (∀ x ∈ l, x ∈ keys (BuildFromTasks tasks)) ∧
      l.Perm (keys (BuildFromTasks tasks)) ∧
      (∀ i (h : i < l.length),
        counter (BuildFromTasks tasks) (l.get ⟨i, h⟩) (l.take i) ≤ 0) := by
  have hnd := keys_build_nodup tasks
  have hinit := kahnInit (BuildFromTasks tasks) order hnd horder
  have hlen : (keys (BuildFromTasks tasks)).length < (order.length + 1) +
      ([] : List String).length := by
    rw [← horder.length_eq]
    simp
  obtain ⟨l₀, hl₀, _, hnod, hsub, hmem, htopo⟩ :=
    kahnLoop_spec (BuildFromTasks tasks) (order.length + 1) _ _ [] hinit hlen
  rw [topologicalSort_eq, hl₀] at hok
  dsimp only at hok
  by_cases hlen0 : l₀.length ≠ (BuildFromTasks tasks).nodes.length
  · rw [if_pos hlen0] at hok
    cases hok
  · rw [if_neg hlen0] at hok
    cases hok
    push_neg at hlen0
    have hperm : l.Perm (keys (BuildFromTasks tasks)) := by
      refine (List.subperm_of_subset hnod hsub).perm_of_length_le ?_
      rw [keys_length]
      omega
    exact ⟨hnod, hsub, hperm, htopo⟩

theorem indexOf_lt_of_mem_take {α : Type} [DecidableEq α] :
    ∀ (l : List α) (i : Nat) (d : α), d ∈ l.take i → l.indexOf d < i := by
  intro l
  induction l with
  | nil => intro i d hd; rw [List.take_nil] at hd; cases hd
  | cons x l' ih =>
      intro i d hd
      cases i with
      | zero => rw [List.take_zero] at hd; cases hd
      | succ i' =>
          rw [List.take_succ_cons] at hd
          rcases List.mem_cons.mp hd with rfl | hd
          · rw [List.indexOf_cons_self]
            omega
          · by_cases hdx : d = x
            · rw [hdx, List.indexOf_cons_self]
              omega
            · rw [List.indexOf_cons_ne _ (Ne.symm hdx)]
              have := ih i' d hd
              omega

/-- When ids are pairwise distinct, every successful sort places each node
after all of its resolvable dependencies. -/
theorem topologicalSort_respects_deps (tasks : List Task)
    (order : List String) (l : List String)
    (hids : (tasks.map Task.id).Nodup)
    (horder : order.Perm (keys (BuildFromTasks tasks)))
    (hok : TopologicalSort (BuildFromTasks tasks) order = .ok l) :
    ∀ n ∈ l, ∀ d ∈ edgesOf (BuildFromTasks tasks) n,
      containsNode (BuildFromTasks tasks) d = true →
      l.indexOf d < l.indexOf n := by
  obtain ⟨hnod, hsub, hperm, htopo⟩ :=
    topologicalSort_ok_facts tasks order l horder hok
  intro n hn d hd hcd
  have hi : l.indexOf n < l.length := List.indexOf_lt_length.mpr hn
  have hget : l.get ⟨l.indexOf n, hi⟩ = n := List.indexOf_get hi
  have hc := htopo (l.indexOf n) hi
  rw [hget] at hc
  set i := l.indexOf n with hidef
  have htail_nodup : (l.take i).Nodup := (List.take_sublist i l).nodup hnod
  have hnkeys : n ∈ keys (BuildFromTasks tasks) := hsub n hn
  have h₁ : recvd (BuildFromTasks tasks) n (l.take i) =
      (edgesOf (BuildFromTasks tasks) n).countP
        fun e => decide (e ∈ l.take i) := by
    rw [recvd]
    rw [List.map_congr_left (fun x _ =>
      count_revOf_eq tasks n x hids hnkeys)]
    exact sum_count_eq_countP (l.take i) _ htail_nodup
  have h₂ : (edgesOf (BuildFromTasks tasks) n).countP
      (fun e => decide (e ∈ l.take i)) ≤
      (edgesOf (BuildFromTasks tasks) n).countP
        (fun e => containsNode (BuildFromTasks tasks) e) := by
    refine List.countP_mono_left ?_
    intro e _ he
    have hemem : e ∈ l.take i := by simpa using he
    have : e ∈ l := (List.take_sublist i l).subset hemem
    exact (containsNode_iff_mem_keys _ e).mpr (hsub e this)
  have hD : resolvableCount (BuildFromTasks tasks) n =
      (edgesOf (BuildFromTasks tasks) n).countP
        (fun e => containsNode (BuildFromTasks tasks) e) :=
    (List.countP_eq_length_filter _ _).symm
  have heq : (edgesOf (BuildFromTasks tasks) n).countP
      (fun e => decide (e ∈ l.take i)) =
      (edgesOf (BuildFromTasks tasks) n).countP
        (fun e => containsNode (BuildFromTasks tasks) e) := by
    rw [counter, sub_nonpos] at hc
    rw [h₁] at hc
    rw [hD] at hc
    have hc' : (edgesOf (BuildFromTasks tasks) n).countP
        (fun e => containsNode (BuildFromTasks tasks) e) ≤
        (edgesOf (BuildFromTasks tasks) n).countP
          (fun e => decide (e ∈ l.take i)) := by exact_mod_cast hc
    omega
  have hdin : d ∈ l.take i := by
    by_contra hdn
    have hlt := countP_lt_of_witness (edgesOf (BuildFromTasks tasks) n) d hd
      hcd (decide_eq_false hdn)
      (fun e _ he => by
        have hemem : e ∈ l.take i := of_decide_eq_true he
        have : e ∈ l := (List.take_sublist i l).subset hemem
        exact (containsNode_iff_mem_keys _ e).mpr (hsub e this))
    exact absurd heq (Nat.ne_of_lt hlt)
  exact indexOf_lt_of_mem_take l i d hdin

/-- Along any reachability chain the target is always a node. -/
theorem reaches_target_node (g : Graph) (a b : String)
    (h : Reaches g a b) : containsNode g b = true := by
  induction h with
  | single h => exact h.2
  | tail _ hstep _ => exact hstep.2

/-- When ids are pairwise distinct and the resolvable edges contain a
cycle, `TopologicalSort` reports an error. -/
theorem topologicalSort_err_of_cycle (tasks : List Task)
    (order : List String)
    (hids : (tasks.map Task.id).Nodup)
    (horder : order.Perm (keys (BuildFromTasks tasks)))
    (hcyc : ¬ AcyclicG (BuildFromTasks tasks)) :
    ∃ e, TopologicalSort (BuildFromTasks tasks) order = .error e := by
  cases hres : TopologicalSort (BuildFromTasks tasks) order with
  | error e => exact ⟨e, rfl⟩
  | ok l =>
      exfalso
      obtain ⟨hnod, hsub, hperm, _⟩ :=
        topologicalSort_ok_facts tasks order l horder hres
      have hresp := topologicalSort_respects_deps tasks order l hids horder hres
      rw [AcyclicG] at hcyc
      push_neg at hcyc
      obtain ⟨x, hx⟩ := hcyc
      have hxnode : containsNode (BuildFromTasks tasks) x = true := by
        rcases reaches_first_step _ _ _ hx with ⟨c, hc⟩
        refine edges_nonempty_mem_keys tasks x ?_
        intro he
        have hmem := hc.1
        rw [he] at hmem
        cases hmem
      have hdec : ∀ a b, Reaches (BuildFromTasks tasks) a b →
          containsNode (BuildFromTasks tasks) a = true →
          l.indexOf b < l.indexOf a := by
        intro a b hab
        induction hab with
        | single h =>
            intro ha
            have hal : a ∈ l :=
              hperm.mem_iff.mpr ((containsNode_iff_mem_keys _ a).mp ha)
            exact hresp a hal _ h.1 h.2
        | tail hab hstep ihab =>
            intro ha
            rename_i b' c'
            have hb' : containsNode (BuildFromTasks tasks) b' = true :=
              reaches_target_node _ _ _ hab
            have hbl : b' ∈ l :=
              hperm.mem_iff.mpr ((containsNode_iff_mem_keys _ b').mp hb')
            have h₁ := hresp b' hbl _ hstep.1 hstep.2
            have h₂ := ihab ha
            omega
      have := hdec x x hx hxnode
      omega

/-! ## Determinism of `TopologicalSort` across map-iteration orders -/

theorem mapGetD_insert_ite {α : Type} (m : List (String × α)) (k x : String)
    (v d : α) :
    mapGetD (mapInsert m k v) x d = if k = x then v else mapGetD m x d := by
  by_cases h : k = x
  · rw [if_pos h, ← h, mapGetD_insert_self]
  · rw [if_neg h, mapGetD_insert_ne _ _ _ _ _ h]

theorem processDependent_eq (g : Graph) (inDeg : List (String × Int))
    (q : List String) (dependent : String) :
    processDependent g (inDeg, q) dependent =
      if containsNode g dependent = true then
        (mapInsert inDeg dependent (mapGetD inDeg dependent 0 - 1),
          if mapGetD inDeg dependent 0 - 1 = 0 then
            sortStrings (q ++ [dependent])
          else q)
      else (inDeg, q) := by
  rw [processDependent]
  by_cases hc : containsNode g dependent = true
  · rw [if_neg (by simpa using hc), if_pos hc]
    simp only
    by_cases hz : mapGetD inDeg dependent 0 - 1 = 0
    · rw [if_pos hz, if_pos hz]
    · rw [if_neg hz, if_neg hz]
  · rw [if_pos (by simpa using hc), if_neg hc]

theorem processDependent_congr (g : Graph) (i₁ i₂ : List (String × Int))
    (q : List String) (d : String)
    (h : ∀ x, mapGetD i₁ x 0 = mapGetD i₂ x 0) :
    (processDependent g (i₁, q) d).2 = (processDependent g (i₂, q) d).2 ∧
      ∀ x, mapGetD (processDependent g (i₁, q) d).1 x 0 =
        mapGetD (processDependent g (i₂, q) d).1 x 0 := by
  rw [processDependent_eq, processDependent_eq]
  by_cases hc : containsNode g d = true
  · rw [if_pos hc, if_pos hc]
    simp only
    rw [h d]
    refine ⟨rfl, ?_⟩
    intro x
    rw [mapGetD_insert_ite, mapGetD_insert_ite, h x]
  · rw [if_neg hc, if_neg hc]
    exact ⟨rfl, h⟩

theorem foldDependents_congr (g : Graph) :
    ∀ (ds : List String) (i₁ i₂ : List (String × Int)) (q : List String),
      (∀ x, mapGetD i₁ x 0 = mapGetD i₂ x 0) →
      (ds.foldl (processDependent g) (i₁, q)).2 =
          (ds.foldl (processDependent g) (i₂, q)).2 ∧
        ∀ x, mapGetD (ds.foldl (processDependent g) (i₁, q)).1 x 0 =
          mapGetD (ds.foldl (processDependent g) (i₂, q)).1 x 0 := by
  intro ds
  induction ds with
  | nil => intro i₁ i₂ q h; exact ⟨rfl, h⟩
  | cons d ds' ih =>
      intro i₁ i₂ q h
      rw [List.foldl_cons, List.foldl_cons]
      have hstep := processDependent_congr g i₁ i₂ q d h
      have h2 := ih (processDependent g (i₁, q) d).1
        (processDependent g (i₂, q) d).1 (processDependent g (i₁, q) d).2
        hstep.2
      rw [Prod.mk.eta] at h2
      rw [hstep.1, Prod.mk.eta] at h2
      exact h2

theorem kahnLoop_congr (g : Graph) :
    ∀ (fuel : Nat) (i₁ i₂ : List (String × Int)) (queue result : List String),
      (∀ x, mapGetD i₁ x 0 = mapGetD i₂ x 0) →
      kahnLoop g fuel i₁ queue result = kahnLoop g fuel i₂ queue result := by
  intro fuel
  induction fuel with
  | zero =>
      intro i₁ i₂ queue result _
      cases queue <;> rfl
  | succ fuel ih =>
      intro i₁ i₂ queue result h
      cases queue with
      | nil => rfl
      | cons node rest =>
          rw [kahnLoop, kahnLoop]
          have hfold := foldDependents_congr g (revOf g node) i₁ i₂ rest h
          rw [hfold.1]
          exact ih _ _ _ _ hfold.2

theorem sortStrings_sorted (l : List String) :
    List.Sorted (fun a b => strLe a b = true) (sortStrings l) :=
  @List.sorted_insertionSort String (fun a b => strLe a b = true) _
    ⟨fun a b => strLe_total a b⟩ ⟨fun a b c => strLe_trans a b c⟩ l

theorem sortStrings_eq_of_perm (l₁ l₂ : List String) (h : l₁.Perm l₂) :
    sortStrings l₁ = sortStrings l₂ := by
  refine @List.eq_of_perm_of_sorted String (fun a b => strLe a b = true)
    ⟨fun a b => strLe_antisymm a b⟩ _ _ ?_ (sortStrings_sorted l₁)
    (sortStrings_sorted l₂)
  exact (List.perm_insertionSort _ l₁).trans
    (h.trans (List.perm_insertionSort _ l₂).symm)

/-- Two runs of `TopologicalSort` on the graph of the same task list agree,
whatever key-enumeration order the runtime picked each time. -/
theorem topologicalSort_deterministic (tasks : List Task)
    (o₁ o₂ : List String)
    (h₁ : o₁.Perm (keys (BuildFromTasks tasks)))
    (h₂ : o₂.Perm (keys (BuildFromTasks tasks))) :
    TopologicalSort (BuildFromTasks tasks) o₁ =
      TopologicalSort (BuildFromTasks tasks) o₂ := by
  have h₁₂ : o₁.Perm o₂ := h₁.trans h₂.symm
  have hlen : o₁.length = o₂.length := h₁₂.length_eq
  have hq : sortStrings (o₁.filter fun id =>
        resolvableCount (BuildFromTasks tasks) id = 0) =
      sortStrings (o₂.filter fun id =>
        resolvableCount (BuildFromTasks tasks) id = 0) :=
    sortStrings_eq_of_perm _ _ (h₁₂.filter _)
  have hdeg : ∀ x, mapGetD (o₁.map fun id =>
        (id, (resolvableCount (BuildFromTasks tasks) id : Int))) x 0 =
      mapGetD (o₂.map fun id =>
        (id, (resolvableCount (BuildFromTasks tasks) id : Int))) x 0 := by
    intro x
    rw [mapGetD, mapGetD, mapGet?_map_self, mapGet?_map_self]
    by_cases hx : x ∈ o₁
    · rw [if_pos hx, if_pos (h₁₂.mem_iff.mp hx)]
    · rw [if_neg hx, if_neg fun hc => hx (h₁₂.mem_iff.mpr hc)]
  rw [topologicalSort_eq, topologicalSort_eq, hlen, hq,
    kahnLoop_congr (BuildFromTasks tasks) _ _ _ _ _ hdeg]

/-! ## Inertness of dangling references

Two graphs that agree on node membership, on edge lists up to dangling
entries, and on the reverse adjacency of their nodes, are indistinguishable
to both traversals. -/

structure GraphEquiv (g₂ g₁ : Graph) : Prop where
  nodeEq : ∀ x, containsNode g₂ x = containsNode g₁ x
  edgeEq : ∀ n, (edgesOf g₂ n).filter (fun e => containsNode g₂ e) =
    (edgesOf g₁ n).filter (fun e => containsNode g₁ e)
  revEq : ∀ n, containsNode g₁ n = true → revOf g₂ n = revOf g₁ n
  lenEq : g₂.nodes.length = g₁.nodes.length
  keysEq : keys g₂ = keys g₁

theorem graphEquiv_resolvableCount {g₂ g₁ : Graph} (E : GraphEquiv g₂ g₁) :
    ∀ id, resolvableCount g₂ id = resolvableCount g₁ id := by
  intro id
  rw [resolvableCount, resolvableCount, E.edgeEq id]

/-- One-step unfolding of the dependency loop. -/
theorem dfsDeps_cons (g : Graph)
    (visit : DfsState → String → Option (Except String DfsState))
    (node dep : String) (rest : List String) (st : DfsState) :
    dfsDeps g visit node (dep :: rest) st =
      if containsNode g dep = true then
        if colorOf st dep = 1 then
          some (.error ("cycle detected: " ++ buildCyclePath st.parent node dep))
        else if colorOf st dep = 0 then
          match visit (setParent st dep node) dep with
          | none => none
          | some (.error e) => some (.error e)
          | some (.ok st') => dfsDeps g visit node rest st'
        else dfsDeps g visit node rest st
      else dfsDeps g visit node rest st := by
  rw [dfsDeps]
  by_cases hc : containsNode g dep = true
  · rw [if_neg (by simpa using hc), if_pos hc]
  · rw [if_pos (by simpa using hc), if_neg hc]

/-- Skipped dangling entries leave no trace: the dependency loop of `dfs`
behaves as if it ran on the filtered list. -/
theorem dfsDeps_filter (g : Graph)
    (visit : DfsState → String → Option (Except String DfsState))
    (node : String) :
    ∀ (deps : List String) (st : DfsState),
      dfsDeps g visit node deps st =
        dfsDeps g visit node (deps.filter fun e => containsNode g e) st := by
  intro deps
  induction deps with
  | nil => intro st; rfl
  | cons dep rest ih =>
      intro st
      by_cases hc : containsNode g dep = true
      · rw [List.filter_cons_of_pos hc, dfsDeps_cons, dfsDeps_cons,
          if_pos hc, if_pos hc]
        by_cases hgray : colorOf st dep = 1
        · rw [if_pos hgray, if_pos hgray]
        · rw [if_neg hgray, if_neg hgray]
          by_cases hwhite : colorOf st dep = 0
          · rw [if_pos hwhite, if_pos hwhite]
            cases visit (setParent st dep node) dep with
            | none => rfl
            | some r =>
                cases r with
                | error e => rfl
                | ok st₁ => exact ih st₁
          · rw [if_neg hwhite, if_neg hwhite]
            exact ih st
      · rw [List.filter_cons_of_neg (by simpa using hc), dfsDeps_cons,
          if_neg hc]
        exact ih st

theorem dfsDeps_congr2 (g₂ g₁ : Graph)
    (visit₂ visit₁ : DfsState → String → Option (Except String DfsState))
    (node : String) (hv : ∀ st n, visit₂ st n = visit₁ st n) :
    ∀ (deps : List String) (st : DfsState),
      (∀ e ∈ deps, containsNode g₂ e = containsNode g₁ e) →
      dfsDeps g₂ visit₂ node deps st = dfsDeps g₁ visit₁ node deps st := by
  intro deps
  induction deps with
  | nil => intro st _; rfl
  | cons dep rest ih =>
      intro st hdeps
      rw [dfsDeps_cons, dfsDeps_cons, hdeps dep (List.mem_cons_self _ _)]
      have hrest := fun st' => ih st' fun e he =>
        hdeps e (List.mem_cons_of_mem _ he)
      by_cases hc : containsNode g₁ dep = true
      · rw [if_pos hc, if_pos hc]
        by_cases hgray : colorOf st dep = 1
        · rw [if_pos hgray, if_pos hgray]
        · rw [if_neg hgray, if_neg hgray]
          by_cases hwhite : colorOf st dep = 0
          · rw [if_pos hwhite, if_pos hwhite, hv (setParent st dep node) dep]
            cases visit₁ (setParent st dep node) dep with
            | none => rfl
            | some r =>
                cases r with
                | error e => rfl
                | ok st₁ => exact hrest st₁
          · rw [if_neg hwhite, if_neg hwhite]
            exact hrest st
      · rw [if_neg hc, if_neg hc]
        exact hrest st

theorem dfsVisit_congr {g₂ g₁ : Graph} (E : GraphEquiv g₂ g₁) :
    ∀ (fuel : Nat) (st : DfsState) (node : String),
      dfsVisit g₂ fuel st node = dfsVisit g₁ fuel st node := by
  intro fuel
  induction fuel with
  | zero => intro st node; rfl
  | succ fuel ih =>
      intro st node
      rw [dfsVisit, dfsVisit]
      rw [dfsDeps_filter g₂ _ node, dfsDeps_filter g₁ _ node, E.edgeEq node]
      rw [dfsDeps_congr2 g₂ g₁ _ _ node ih _ (grayify st node)
        (fun e he => E.nodeEq e)]

theorem validateLoop_congr {g₂ g₁ : Graph} (E : GraphEquiv g₂ g₁)
    (fuel : Nat) :
    ∀ (order : List String) (st : DfsState),
      validateLoop g₂ fuel order st = validateLoop g₁ fuel order st := by
  intro order
  induction order with
  | nil => intro st; rfl
  | cons id rest ih =>
      intro st
      rw [validateLoop, validateLoop, dfsVisit_congr E fuel st id]
      by_cases hwhite : colorOf st id = 0
      · rw [if_pos hwhite, if_pos hwhite]
        cases dfsVisit g₁ fuel st id with
        | none => rfl
        | some r =>
            cases r with
            | error e => rfl
            | ok st' => exact ih st'
      · rw [if_neg hwhite, if_neg hwhite]
        exact ih st

theorem validateAcyclic_congr {g₂ g₁ : Graph} (E : GraphEquiv g₂ g₁)
    (order : List String) :
    ValidateAcyclic g₂ order = ValidateAcyclic g₁ order := by
  rw [ValidateAcyclic, ValidateAcyclic, E.keysEq]
  exact validateLoop_congr E _ order ⟨[], []⟩

theorem processDependent_congr2 {g₂ g₁ : Graph} (E : GraphEquiv g₂ g₁)
    (st : List (String × Int) × List String) (d : String) :
    processDependent g₂ st d = processDependent g₁ st d := by
  obtain ⟨i, q⟩ := st
  rw [processDependent_eq, processDependent_eq, E.nodeEq d]

theorem foldDependents_congr2 {g₂ g₁ : Graph} (E : GraphEquiv g₂ g₁) :
    ∀ (ds : List String) (st : List (String × Int) × List String),
      ds.foldl (processDependent g₂) st = ds.foldl (processDependent g₁) st := by
  intro ds
  induction ds with
  | nil => intro st; rfl
  | cons d ds' ih =>
      intro st
      rw [List.foldl_cons, List.foldl_cons, processDependent_congr2 E st d]
      exact ih _

/-- After the fold, the queue still contains only node keys. -/
theorem foldDependents_queue_sub (g : Graph) :
    ∀ (ds : List String) (i : List (String × Int)) (q : List String),
      (∀ x ∈ q, x ∈ keys g) →
      ∀ x ∈ (ds.foldl (processDependent g) (i, q)).2, x ∈ keys g := by
  intro ds
  induction ds with
  | nil => intro i q hq; exact hq
  | cons d ds' ih =>
      intro i q hq
      rw [List.foldl_cons, processDependent_eq]
      by_cases hc : containsNode g d = true
      · rw [if_pos hc]
        by_cases hz : mapGetD i d 0 - 1 = 0
        · rw [if_pos hz]
          refine ih _ _ ?_
          intro x hx
          rcases List.mem_append.mp ((mem_sortStrings _ x).mp hx) with hx | hx
          · exact hq x hx
          · rw [List.mem_singleton.mp hx]
            exact (containsNode_iff_mem_keys g d).mp hc
        · rw [if_neg hz]
          exact ih _ _ hq
      · rw [if_neg hc]
        exact ih _ _ hq

theorem kahnLoop_congr2 {g₂ g₁ : Graph} (E : GraphEquiv g₂ g₁) :
    ∀ (fuel : Nat) (i : List (String × Int)) (queue result : List String),
      (∀ x ∈ queue, x ∈ keys g₁) →
      kahnLoop g₂ fuel i queue result = kahnLoop g₁ fuel i queue result := by
  intro fuel
  induction fuel with
  | zero =>
      intro i queue result _
      cases queue <;> rfl
  | succ fuel ih =>
      intro i queue result hq
      cases queue with
      | nil => rfl
      | cons node rest =>
          rw [kahnLoop, kahnLoop]
          have hnode : containsNode g₁ node = true :=
            (containsNode_iff_mem_keys g₁ node).mpr
              (hq node (List.mem_cons_self _ _))
          rw [E.revEq node hnode, foldDependents_congr2 E]
          refine ih _ _ _ ?_
          exact foldDependents_queue_sub g₁ (revOf g₁ node) i rest
            fun x hx => hq x (List.mem_cons_of_mem _ hx)

theorem topologicalSort_congr {g₂ g₁ : Graph} (E : GraphEquiv g₂ g₁)
    (order : List String) (horder : ∀ x ∈ order, x ∈ keys g₁) :
    TopologicalSort g₂ order = TopologicalSort g₁ order := by
  rw [topologicalSort_eq, topologicalSort_eq]
  have hideg : (order.map fun id => (id, (resolvableCount g₂ id : Int))) =
      order.map fun id => (id, (resolvableCount g₁ id : Int)) :=
    List.map_congr_left fun id _ => by rw [graphEquiv_resolvableCount E id]
  have hqueue : (order.filter fun id => resolvableCount g₂ id = 0) =
      order.filter fun id => resolvableCount g₁ id = 0 :=
    List.filter_congr fun id _ => by rw [graphEquiv_resolvableCount E id]
  rw [hideg, hqueue, E.lenEq,
    kahnLoop_congr2 E (order.length + 1) _ _ [] fun x hx =>
      horder x ((mem_sortStrings _ x).mp hx |> List.mem_filter.mp |>.1)]

theorem bool_eq_of_iff {b₁ b₂ : Bool} (h : b₁ = true ↔ b₂ = true) :
    b₁ = b₂ := by
  cases b₁ <;> cases b₂ <;> simp_all

theorem mapKeys_insert_congr {α β : Type} (m₁ : List (String × α))
    (m₂ : List (String × β)) (k : String) (v₁ : α) (v₂ : β)
    (h : mapKeys m₁ = mapKeys m₂) :
    mapKeys (mapInsert m₁ k v₁) = mapKeys (mapInsert m₂ k v₂) := by
  by_cases hk : k ∈ mapKeys m₁
  · rw [mapKeys_insert_mem m₁ k v₁ hk, mapKeys_insert_mem m₂ k v₂ (h ▸ hk), h]
  · rw [mapKeys_insert_not_mem m₁ k v₁ hk,
      mapKeys_insert_not_mem m₂ k v₂ (h ▸ hk), h]

theorem keys_build_eq_of_map_id :
    ∀ (ts₁ ts₂ : List Task) (g₁ g₂ : Graph),
      ts₁.map Task.id = ts₂.map Task.id →
      mapKeys g₁.nodes = mapKeys g₂.nodes →
      mapKeys ((ts₁.foldl addTask g₁).nodes) =
        mapKeys ((ts₂.foldl addTask g₂).nodes) := by
  intro ts₁
  induction ts₁ with
  | nil =>
      intro ts₂ g₁ g₂ hmap hkeys
      cases ts₂ with
      | nil => exact hkeys
      | cons u us => cases hmap
  | cons x xs ih =>
      intro ts₂ g₁ g₂ hmap hkeys
      cases ts₂ with
      | nil => cases hmap
      | cons u us =>
          rw [List.map_cons, List.map_cons] at hmap
          injection hmap with h₁ h₂
          rw [List.foldl_cons, List.foldl_cons]
          refine ih us (addTask g₁ x) (addTask g₂ u) h₂ ?_
          show mapKeys (mapInsert g₁.nodes x.id x) =
            mapKeys (mapInsert g₂.nodes u.id u)
          rw [h₁]
          exact mapKeys_insert_congr _ _ _ _ _ hkeys

/-- The last occurrence of an id in a list split around a middle task. -/
theorem lastTask_middle (pre post : List Task) (x : Task) (n : String) :
    lastTask (pre ++ x :: post) n =
      (lastTask post n).or
        ((if x.id = n then some x else none).or (lastTask pre n)) := by
  rw [lastTask, List.reverse_append, List.reverse_cons, List.find?_append,
    List.find?_append]
  rw [lastTask, lastTask, Option.or_assoc]
  congr 1
  congr 1
  by_cases h : x.id = n <;> simp [List.find?_cons, h]

/-- Inserting one dependency entry `d` that matches no task id into one
task's `dependsOn` yields an equivalent graph: every traversal in `dag.go`
skips it. -/
theorem danglingEquiv (pre post : List Task) (t : Task)
    (l₁ l₂ : List String) (d : String)
    (ht : t.dependsOn = l₁ ++ l₂)
    (hd : ∀ u ∈ pre ++ t :: post, u.id ≠ d) :
    GraphEquiv
      (BuildFromTasks (pre ++ { t with dependsOn := l₁ ++ d :: l₂ } :: post))
      (BuildFromTasks (pre ++ t :: post)) := by
  set t' : Task := { t with dependsOn := l₁ ++ d :: l₂ } with ht'
  have hids : (pre ++ t' :: post).map Task.id = (pre ++ t :: post).map Task.id := by
    rw [List.map_append, List.map_append, List.map_cons, List.map_cons]
  have hnode : ∀ x, containsNode (BuildFromTasks (pre ++ t' :: post)) x =
      containsNode (BuildFromTasks (pre ++ t :: post)) x := by
    intro x
    refine bool_eq_of_iff ?_
    rw [containsNode_build, containsNode_build]
    constructor
    · rintro ⟨u, hu, he⟩
      have : u.id ∈ (pre ++ t' :: post).map Task.id := List.mem_map_of_mem _ hu
      rw [hids] at this
      rcases List.mem_map.mp this with ⟨w, hw, hwe⟩
      exact ⟨w, hw, hwe.trans he⟩
    · rintro ⟨u, hu, he⟩
      have : u.id ∈ (pre ++ t :: post).map Task.id := List.mem_map_of_mem _ hu
      rw [← hids] at this
      rcases List.mem_map.mp this with ⟨w, hw, hwe⟩
      exact ⟨w, hw, hwe.trans he⟩
  have hdnot : containsNode (BuildFromTasks (pre ++ t :: post)) d = false := by
    cases hcd : containsNode (BuildFromTasks (pre ++ t :: post)) d
    · rfl
    · exfalso
      rcases (containsNode_build _ d).mp hcd with ⟨u, hu, he⟩
      exact hd u hu he
  have hkeys : keys (BuildFromTasks (pre ++ t' :: post)) =
      keys (BuildFromTasks (pre ++ t :: post)) := by
    rw [keys, keys, BuildFromTasks, BuildFromTasks]
    exact keys_build_eq_of_map_id _ _ _ _ hids rfl
  refine ⟨hnode, ?_, ?_, ?_, hkeys⟩
  · -- filtered edge lists agree
    intro n
    have hfc : ∀ l : List String,
        l.filter (fun e => containsNode (BuildFromTasks (pre ++ t' :: post)) e) =
          l.filter (fun e => containsNode (BuildFromTasks (pre ++ t :: post)) e) :=
      fun l => List.filter_congr fun e _ => by rw [hnode e]
    rw [hfc]
    rw [edgesOf_build, edgesOf_build, lastTask_middle, lastTask_middle]
    cases hpost : lastTask post n with
    | some u => simp
    | none =>
        simp only [Option.none_or]
        by_cases hxn : t.id = n
        · rw [show t'.id = t.id from rfl]
          rw [if_pos hxn, if_pos hxn]
          show ((l₁ ++ d :: l₂).filter _) = (t.dependsOn.filter _)
          rw [ht, List.filter_append, List.filter_append,
            List.filter_cons_of_neg (by simpa using hdnot)]
        · rw [show t'.id = t.id from rfl, if_neg hxn, if_neg hxn]
  · -- reverse adjacency of nodes agrees
    intro n hn
    have hnd : n ≠ d := by
      intro he
      rw [he, hdnot] at hn
      cases hn
    rw [revOf_build, revOf_build, List.flatMap_append, List.flatMap_append,
      List.flatMap_cons, List.flatMap_cons]
    congr 2
    show List.replicate ((l₁ ++ d :: l₂).count n) t.id = _
    rw [ht, List.count_append, List.count_append, List.count_cons]
    simp [Ne.symm hnd]
  · rw [← keys_length, ← keys_length, hkeys]

/-! ## Correctness of `TransitiveDeps`

The walk follows raw edge entries (dangling ids included; they have empty
edge lists of their own), so the induced step relation is plain edge-list
membership. -/

def wStep (g : Graph) (a b : String) : Prop := b ∈ edgesOf g a

def ReachesW (g : Graph) : String → String → Prop :=
  Relation.TransGen (wStep g)

theorem mapGet?_mem_values {α : Type} :
    ∀ (m : List (String × α)) (k : String) (v : α),
      mapGet? m k = some v → v ∈ m.map Prod.snd := by
  intro m
  induction m with
  | nil => intro k v h; cases h
  | cons hd tl ih =>
      intro k v h
      obtain ⟨k₀, v₀⟩ := hd
      rw [mapGet?] at h
      by_cases hk : k₀ = k
      · rw [if_pos hk] at h
        cases h
        exact List.mem_cons_self _ _
      · rw [if_neg hk] at h
        exact List.mem_cons_of_mem _ (ih k v h)

theorem edgesOf_subset_universe (g : Graph) (n e : String)
    (h : e ∈ edgesOf g n) : e ∈ depsUniverse g := by
  rw [depsUniverse, List.mem_dedup, List.mem_flatten]
  rw [edgesOf, mapGetD] at h
  cases hg : mapGet? g.edges n with
  | none => rw [hg] at h; cases h
  | some l =>
      rw [hg] at h
      exact ⟨l, mapGet?_mem_values g.edges n l hg, h⟩

theorem walkDeps_mono (g : Graph)
    (walkF : WalkState → String → Option WalkState)
    (hw : ∀ st n st', walkF st n = some st' → ∀ x ∈ st.visited, x ∈ st'.visited) :
    ∀ (deps : List String) (st st' : WalkState),
      walkDeps g walkF deps st = some st' →
      ∀ x ∈ st.visited, x ∈ st'.visited := by
  intro deps
  induction deps with
  | nil =>
      intro st st' h
      rw [walkDeps] at h
      cases h
      exact fun x hx => hx
  | cons dep rest ih =>
      intro st st' h
      rw [walkDeps] at h
      by_cases hv : dep ∈ st.visited
      · rw [if_pos hv] at h
        exact ih st st' h
      · rw [if_neg hv] at h
        cases hw0 : walkF ⟨dep :: st.visited, st.result ++ [dep]⟩ dep with
        | none => rw [hw0] at h; cases h
        | some st₁ =>
            rw [hw0] at h
            intro x hx
            refine ih st₁ st' h x ?_
            exact hw _ _ _ hw0 x (List.mem_cons_of_mem _ hx)

theorem walkFuel_mono (g : Graph) :
    ∀ (f : Nat) (st : WalkState) (n : String) (st' : WalkState),
      walkFuel g f st n = some st' → ∀ x ∈ st.visited, x ∈ st'.visited := by
  intro f
  induction f with
  | zero => intro st n st' h; cases h
  | succ f ih =>
      intro st n st' h
      rw [walkFuel] at h
      exact walkDeps_mono g (walkFuel g f) (fun st₀ n₀ st₀' h₀ => ih st₀ n₀ st₀' h₀)
        (edgesOf g n) st st' h

theorem walkDeps_sync (g : Graph)
    (walkF : WalkState → String → Option WalkState)
    (hw : ∀ st n st', walkF st n = some st' →
      (∀ x, x ∈ st.result ↔ x ∈ st.visited) →
      ∀ x, x ∈ st'.result ↔ x ∈ st'.visited) :
    ∀ (deps : List String) (st st' : WalkState),
      walkDeps g walkF deps st = some st' →
      (∀ x, x ∈ st.result ↔ x ∈ st.visited) →
      ∀ x, x ∈ st'.result ↔ x ∈ st'.visited := by
  intro deps
  induction deps with
  | nil =>
      intro st st' h hs
      rw [walkDeps] at h
      cases h
      exact hs
  | cons dep rest ih =>
      intro st st' h hs
      rw [walkDeps] at h
      by_cases hv : dep ∈ st.visited
      · rw [if_pos hv] at h
        exact ih st st' h hs
      · rw [if_neg hv] at h
        cases hw0 : walkF ⟨dep :: st.visited, st.result ++ [dep]⟩ dep with
        | none => rw [hw0] at h; cases h
        | some st₁ =>
            rw [hw0] at h
            refine ih st₁ st' h ?_
            refine hw _ _ _ hw0 ?_
            intro x
            show x ∈ st.result ++ [dep] ↔ x ∈ dep :: st.visited
            rw [List.mem_append, List.mem_singleton, List.mem_cons, hs x]
            tauto

theorem walkFuel_sync (g : Graph) :
    ∀ (f : Nat) (st : WalkState) (n : String) (st' : WalkState),
      walkFuel g f st n = some st' →
      (∀ x, x ∈ st.result ↔ x ∈ st.visited) →
      ∀ x, x ∈ st'.result ↔ x ∈ st'.visited := by
  intro f
  induction f with
  | zero => intro st n st' h; cases h
  | succ f ih =>
      intro st n st' h hs
      rw [walkFuel] at h
      exact walkDeps_sync g (walkFuel g f)
        (fun st₀ n₀ st₀' h₀ hs₀ => ih st₀ n₀ st₀' h₀ hs₀)
        (edgesOf g n) st st' h hs

theorem walkDeps_sound (g : Graph) (root : String)
    (walkF : WalkState → String → Option WalkState)
    (hw : ∀ st n st', walkF st n = some st' →
      (n = root ∨ ReachesW g root n) →
      ∀ x ∈ st'.visited, x ∈ st.visited ∨ ReachesW g root x) :
    ∀ (deps : List String) (n : String) (st st' : WalkState),
      walkDeps g walkF deps st = some st' →
      (∀ e ∈ deps, e ∈ edgesOf g n) →
      (n = root ∨ ReachesW g root n) →
      ∀ x ∈ st'.visited, x ∈ st.visited ∨ ReachesW g root x := by
  intro deps
  induction deps with
  | nil =>
      intro n st st' h _ _
      rw [walkDeps] at h
      cases h
      exact fun x hx => Or.inl hx
  | cons dep rest ih =>
      intro n st st' h hdeps hn
      rw [walkDeps] at h
      by_cases hv : dep ∈ st.visited
      · rw [if_pos hv] at h
        exact ih n st st' h (fun e he => hdeps e (List.mem_cons_of_mem _ he)) hn
      · rw [if_neg hv] at h
        cases hw0 : walkF ⟨dep :: st.visited, st.result ++ [dep]⟩ dep with
        | none => rw [hw0] at h; cases h
        | some st₁ =>
            rw [hw0] at h
            have hstep : wStep g n dep := hdeps dep (List.mem_cons_self _ _)
            have hrdep : ReachesW g root dep := by
              rcases hn with rfl | hr
              · exact Relation.TransGen.single hstep
              · exact Relation.TransGen.tail hr hstep
            intro x hx
            rcases ih n st₁ st' h
                (fun e he => hdeps e (List.mem_cons_of_mem _ he)) hn x hx with
              hx₁ | hx₁
            · rcases hw _ _ _ hw0 (Or.inr hrdep) x hx₁ with hx₂ | hx₂
              · rcases List.mem_cons.mp hx₂ with rfl | hx₂
                · exact Or.inr hrdep
                · exact Or.inl hx₂
              · exact Or.inr hx₂
            · exact Or.inr hx₁

theorem walkFuel_sound (g : Graph) (root : String) :
    ∀ (f : Nat) (st : WalkState) (n : String) (st' : WalkState),
      walkFuel g f st n = some st' →
      (n = root ∨ ReachesW g root n) →
      ∀ x ∈ st'.visited, x ∈ st.visited ∨ ReachesW g root x := by
  intro f
  induction f with
  | zero => intro st n st' h; cases h
  | succ f ih =>
      intro st n st' h hn
      rw [walkFuel] at h
      exact walkDeps_sound g root (walkFuel g f)
        (fun st₀ n₀ st₀' h₀ hn₀ => ih st₀ n₀ st₀' h₀ hn₀)
        (edgesOf g n) n st st' h (fun e he => he) hn

/-- Every visited id is either still pending (on the stack `L`) or has all
its edge targets visited. -/
def wClosed (g : Graph) (st : WalkState) (L : List String) : Prop :=
  ∀ v ∈ st.visited, v ∈ L ∨ ∀ e ∈ edgesOf g v, e ∈ st.visited

theorem walkDeps_closed (g : Graph)
    (walkF : WalkState → String → Option WalkState)
    (hw_mono : ∀ st n st', walkF st n = some st' →
      ∀ x ∈ st.visited, x ∈ st'.visited)
    (hw : ∀ st n st', walkF st n = some st' → ∀ L, wClosed g st (n :: L) →
      wClosed g st' L ∧ ∀ e ∈ edgesOf g n, e ∈ st'.visited) :
    ∀ (deps : List String) (n : String) (st st' : WalkState) (L : List String),
      walkDeps g walkF deps st = some st' →
      wClosed g st (n :: L) →
      (∀ e ∈ edgesOf g n, e ∈ deps ∨ e ∈ st.visited) →
      wClosed g st' L ∧ ∀ e ∈ edgesOf g n, e ∈ st'.visited := by
  intro deps
  induction deps with
  | nil =>
      intro n st st' L h hcl hpre
      rw [walkDeps] at h
      cases h
      have hall : ∀ e ∈ edgesOf g n, e ∈ st.visited := by
        intro e he
        rcases hpre e he with he' | he'
        · cases he'
        · exact he'
      refine ⟨?_, hall⟩
      intro v hv
      rcases hcl v hv with hv' | hv'
      · rcases List.mem_cons.mp hv' with rfl | hv'
        · exact Or.inr hall
        · exact Or.inl hv'
      · exact Or.inr hv'
  | cons dep rest ih =>
      intro n st st' L h hcl hpre
      rw [walkDeps] at h
      by_cases hv : dep ∈ st.visited
      · rw [if_pos hv] at h
        refine ih n st st' L h hcl ?_
        intro e he
        rcases hpre e he with he' | he'
        · rcases List.mem_cons.mp he' with rfl | he'
          · exact Or.inr hv
          · exact Or.inl he'
        · exact Or.inr he'
      · rw [if_neg hv] at h
        cases hw0 : walkF ⟨dep :: st.visited, st.result ++ [dep]⟩ dep with
        | none => rw [hw0] at h; cases h
        | some st₁ =>
            rw [hw0] at h
            have hcl₁ : wClosed g (⟨dep :: st.visited, st.result ++ [dep]⟩ :
                WalkState) (dep :: n :: L) := by
              intro v hv'
              rcases List.mem_cons.mp hv' with rfl | hv'
              · exact Or.inl (List.mem_cons_self _ _)
              · rcases hcl v hv' with hv'' | hv''
                · exact Or.inl (List.mem_cons_of_mem _ hv'')
                · exact Or.inr fun e he =>
                    List.mem_cons_of_mem _ (hv'' e he)
            have hrec := hw _ _ _ hw0 (n :: L) hcl₁
            have hmono₁ : ∀ x ∈ dep :: st.visited, x ∈ st₁.visited :=
              hw_mono _ _ _ hw0
            refine ih n st₁ st' L h hrec.1 ?_
            intro e he
            rcases hpre e he with he' | he'
            · rcases List.mem_cons.mp he' with rfl | he'
              · exact Or.inr (hmono₁ e (List.mem_cons_self _ _))
              · exact Or.inl he'
            · exact Or.inr (hmono₁ e (List.mem_cons_of_mem _ he'))

theorem walkFuel_closed (g : Graph) :
    ∀ (f : Nat) (st : WalkState) (n : String) (st' : WalkState),
      walkFuel g f st n = some st' → ∀ L, wClosed g st (n :: L) →
      wClosed g st' L ∧ ∀ e ∈ edgesOf g n, e ∈ st'.visited := by
  intro f
  induction f with
  | zero => intro st n st' h; cases h
  | succ f ih =>
      intro st n st' h L hcl
      rw [walkFuel] at h
      exact walkDeps_closed g (walkFuel g f)
        (fun st₀ n₀ st₀' h₀ => walkFuel_mono g f st₀ n₀ st₀' h₀)
        (fun st₀ n₀ st₀' h₀ L₀ hcl₀ => ih st₀ n₀ st₀' h₀ L₀ hcl₀)
        (edgesOf g n) n st st' L h hcl (fun e he => Or.inl he)

/-- Number of universe ids not yet visited; bounds the walk's recursion. -/
def uCount (g : Graph) (st : WalkState) : Nat :=
  (depsUniverse g).countP fun e => ¬ e ∈ st.visited

theorem uCount_mono (g : Graph) (st st' : WalkState)
    (h : ∀ x ∈ st.visited, x ∈ st'.visited) : uCount g st' ≤ uCount g st := by
  refine List.countP_mono_left ?_
  intro x _ hx
  simp only [decide_eq_true_eq] at hx ⊢
  exact fun hc => hx (h x hc)

theorem uCount_mark (g : Graph) (st : WalkState) (dep : String)
    (r : List String) (hmem : dep ∈ depsUniverse g) (hv : dep ∉ st.visited) :
    uCount g ⟨dep :: st.visited, r⟩ + 1 = uCount g st := by
  have hnd : (depsUniverse g).Nodup := List.nodup_dedup _
  have hperm := List.perm_cons_erase hmem
  rw [uCount, uCount, hperm.countP_eq, hperm.countP_eq, List.countP_cons,
    List.countP_cons]
  have h₁ : (decide (¬ dep ∈ (⟨dep :: st.visited, r⟩ : WalkState).visited)) =
      false := by simp
  have h₂ : (decide (¬ dep ∈ st.visited)) = true := by simp [hv]
  rw [h₁, h₂]
  have hcong : ((depsUniverse g).erase dep).countP
      (fun e => ¬ e ∈ (⟨dep :: st.visited, r⟩ : WalkState).visited) =
      ((depsUniverse g).erase dep).countP fun e => ¬ e ∈ st.visited := by
    refine List.countP_congr ?_
    intro x hx
    have hxne : x ≠ dep := (hnd.mem_erase_iff.mp hx).1
    simp [hxne]
  rw [hcong]
  simp

theorem walkDeps_fuel (g : Graph) (f : Nat)
    (walkF : WalkState → String → Option WalkState)
    (hw_mono : ∀ st n st', walkF st n = some st' →
      ∀ x ∈ st.visited, x ∈ st'.visited)
    (hwf : ∀ st n, uCount g st < f → walkF st n ≠ none) :
    ∀ (deps : List String) (n : String) (st : WalkState),
      (∀ e ∈ deps, e ∈ depsUniverse g) →
      uCount g st ≤ f → walkDeps g walkF deps st ≠ none := by
  intro deps
  induction deps with
  | nil =>
      intro n st _ _ h
      rw [walkDeps] at h
      cases h
  | cons dep rest ih =>
      intro n st hdeps hf h
      rw [walkDeps] at h
      by_cases hv : dep ∈ st.visited
      · rw [if_pos hv] at h
        exact ih n st (fun e he => hdeps e (List.mem_cons_of_mem _ he)) hf h
      · rw [if_neg hv] at h
        cases hw0 : walkF ⟨dep :: st.visited, st.result ++ [dep]⟩ dep with
        | none =>
            have hcnt := uCount_mark g st dep (st.result ++ [dep])
              (hdeps dep (List.mem_cons_self _ _)) hv
            exact hwf _ dep (by omega) hw0
        | some st₁ =>
            rw [hw0] at h
            have hcnt := uCount_mark g st dep (st.result ++ [dep])
              (hdeps dep (List.mem_cons_self _ _)) hv
            have hle : uCount g st₁ ≤ uCount g st := by
              have h₁ := uCount_mono g _ st₁ (hw_mono _ _ _ hw0)
              omega
            exact ih n st₁ (fun e he => hdeps e (List.mem_cons_of_mem _ he))
              (le_trans hle hf) h

theorem walkFuel_fuel (g : Graph) :
    ∀ (f : Nat) (st : WalkState) (n : String),
      uCount g st < f → walkFuel g f st n ≠ none := by
  intro f
  induction f with
  | zero => intro st n h; omega
  | succ f ih =>
      intro st n hf h
      rw [walkFuel] at h
      refine walkDeps_fuel g f (walkFuel g f)
        (fun st₀ n₀ st₀' h₀ => walkFuel_mono g f st₀ n₀ st₀' h₀)
        (fun st₀ n₀ h₀ => ih st₀ n₀ h₀) (edgesOf g n) n st
        (fun e he => edgesOf_subset_universe g n e he) (by omega) h

/-- `TransitiveDeps g id` collects exactly the ids reachable from `id` by
one or more raw dependency edges (only ids present as nodes contribute
outgoing edges; dangling targets end chains). -/
theorem transitiveDeps_iff_reaches (g : Graph) (id x : String) :
    x ∈ TransitiveDeps g id ↔ ReachesW g id x := by
  have hfuel : walkFuel g ((depsUniverse g).length + 1) ⟨[], []⟩ id ≠ none := by
    refine walkFuel_fuel g _ _ id ?_
    have := List.countP_le_length
      (fun e => decide (¬ e ∈ (⟨[], []⟩ : WalkState).visited))
      (l := depsUniverse g)
    rw [uCount]
    omega
  cases hw : walkFuel g ((depsUniverse g).length + 1) ⟨[], []⟩ id with
  | none => exact absurd hw hfuel
  | some st' =>
      rw [TransitiveDeps, hw]
      have hsync := walkFuel_sync g _ _ _ _ hw (by simp)
      have hsound := walkFuel_sound g id _ _ _ _ hw (Or.inl rfl)
      have hclosed := walkFuel_closed g _ _ _ _ hw [] (by
        intro v hv
        cases hv)
      have hreach_vis : ∀ y, ReachesW g id y → y ∈ st'.visited := by
        intro y hy
        induction hy with
        | single h => exact hclosed.2 _ h
        | tail hr hstep ihr =>
            rcases hclosed.1 _ ihr with hb' | hb'
            · cases hb'
            · exact hb' _ hstep
      constructor
      · intro hx
        rcases hsound x ((hsync x).mp hx) with hx' | hx'
        · cases hx'
        · exact hx'
      · intro hx
        exact (hsync x).mpr (hreach_vis x hx)

/-! ## `Store.ReadyTasks` (`internal/store/task.go`, lines 204–250)

The store's file I/O is abstracted away: `allProj` is the snapshot
`ListTasks` produced for the project (every task file of the project in
listing order), and the type-filtered listing the function starts from is
its `filter`.  The final loop looks ids up in `AllTaskMap`; the lookup
cannot miss because every id in the sort's output is a task id, so the
embedding uses `filterMap`. -/

/-- `Store.AllTaskMap`: id-keyed map over all project tasks, last one wins. -/
def AllTaskMap (tasks : List Task) : List (String × Task) :=
  tasks.foldl (fun m t => mapInsert m t.id t) []

/-- The open, unblocked, task-typed candidates of `ReadyTasks`. -/
def readyCandidates (allProj : List Task) : List Task :=
  (allProj.filter fun t => t.taskType = typeTask).filter fun t =>
    t.status = statusOpen ∧ t.IsBlocked (AllTaskMap allProj) ≠ true

/-- `Store.ReadyTasks`, parametrized by the node-map iteration order used
inside `TopologicalSort`. -/
def ReadyTasks (allProj : List Task) (order : List String) : List Task :=
  let tasks := allProj.filter fun t => t.taskType = typeTask
  let allTasks := AllTaskMap allProj
  let candidates := tasks.filter fun t =>
    t.status = statusOpen ∧ t.IsBlocked allTasks ≠ true
  if candidates = [] then []
  else
    match TopologicalSort (BuildFromTasks tasks) order with
    | .error _ => candidates
    | .ok ord =>
        (ord.filter fun id => id ∈ candidates.map Task.id).filterMap
          fun id => mapGet? allTasks id

theorem foldl_taskMap_get (tasks : List Task) (m : List (String × Task))
    (n : String) :
    mapGet? (tasks.foldl (fun m' t => mapInsert m' t.id t) m) n =
      (lastTask tasks n).or (mapGet? m n) := by
  induction tasks generalizing m with
  | nil => simp [lastTask]
  | cons t ts ih =>
      rw [List.foldl_cons, ih]
      unfold lastTask
      rw [List.reverse_cons, List.find?_append, Option.or_assoc]
      congr 1
      by_cases h : t.id = n
      · subst h
        rw [show List.find? (fun t' => decide (t'.id = t.id)) [t] = some t by
          simp [List.find?_cons]]
        simp [mapGet?_insert_self]
      · rw [show List.find? (fun t' => decide (t'.id = n)) [t] = none by
          simp [List.find?_cons, h]]
        rw [mapGet?_insert_ne _ _ _ _ h]
        simp

theorem allTaskMap_get (tasks : List Task) (n : String) :
    mapGet? (AllTaskMap tasks) n = lastTask tasks n := by
  rw [AllTaskMap, foldl_taskMap_get]
  simp [mapGet?]

/-- With pairwise-distinct ids, each task is the last task with its id. -/
theorem lastTask_of_nodup (tasks : List Task) (t : Task)
    (hids : (tasks.map Task.id).Nodup) (ht : t ∈ tasks) :
    lastTask tasks t.id = some t := by
  have hsome : (tasks.reverse.find? fun u => u.id = t.id).isSome := by
    rw [List.find?_isSome]
    exact ⟨t, List.mem_reverse.mpr ht, by simp⟩
  rcases Option.isSome_iff_exists.mp hsome with ⟨u, hu⟩
  have humem : u ∈ tasks := List.mem_reverse.mp (List.mem_of_find?_eq_some hu)
  have huid : u.id = t.id := by simpa using List.find?_some hu
  have hut : u = t := List.inj_on_of_nodup_map hids humem ht huid
  rw [lastTask, hu, hut]

theorem filterMap_eq_map_of_some {α β : Type} (l : List α) (f : α → Option β)
    (g : α → β) (h : ∀ x ∈ l, f x = some (g x)) : l.filterMap f = l.map g := by
  induction l with
  | nil => rfl
  | cons x l' ih =>
      rw [List.filterMap_cons, h x (List.mem_cons_self _ _), List.map_cons,
        ih fun y hy => h y (List.mem_cons_of_mem _ hy)]

def anyTask : Task := ⟨"", "", "", "", "", "", none, [], "", 0, 0⟩

theorem readyTasks_unfold (allProj : List Task) (order : List String) :
    ReadyTasks allProj order =
      if readyCandidates allProj = [] then []
      else
        match TopologicalSort (BuildFromTasks
            (allProj.filter fun t => t.taskType = typeTask)) order with
        | .error _ => readyCandidates allProj
        | .ok ord =>
            (ord.filter fun id =>
              id ∈ (readyCandidates allProj).map Task.id).filterMap
              fun id => mapGet? (AllTaskMap allProj) id := rfl

/-- Behaviour of `ReadyTasks` on snapshots with pairwise-distinct task ids:
the cycle fallback returns the candidates in listing order, and the success
path returns exactly the candidates, ordered by the topological order. -/
theorem readyTasks_spec (allProj : List Task) (order : List String)
    (hids : (allProj.map Task.id).Nodup)
    (horder : order.Perm (keys (BuildFromTasks
      (allProj.filter fun t => t.taskType = typeTask)))) :
    (∀ e, TopologicalSort (BuildFromTasks
        (allProj.filter fun t => t.taskType = typeTask)) order = .error e →
      ReadyTasks allProj order = readyCandidates allProj) ∧
    (∀ ord, TopologicalSort (BuildFromTasks
        (allProj.filter fun t => t.taskType = typeTask)) order = .ok ord →
      (ReadyTasks allProj order).Perm (readyCandidates allProj) ∧
      (ReadyTasks allProj order).map Task.id =
        ord.filter fun id => id ∈ (readyCandidates allProj).map Task.id) := by
  have hcand_tasks : ∀ t ∈ readyCandidates allProj,
      t ∈ allProj.filter fun t' => t'.taskType = typeTask :=
    fun t ht => (List.filter_sublist _).subset ht
  have hcand_all : ∀ t ∈ readyCandidates allProj, t ∈ allProj :=
    fun t ht => (List.filter_sublist _).subset (hcand_tasks t ht)
  have hcand_sl : (readyCandidates allProj).Sublist allProj :=
    (List.filter_sublist _).trans (List.filter_sublist _)
  have hcand_ids_nodup : ((readyCandidates allProj).map Task.id).Nodup :=
    (hcand_sl.map Task.id).nodup hids
  have hlookup : ∀ i ∈ (readyCandidates allProj).map Task.id,
      ∃ t : Task, mapGet? (AllTaskMap allProj) i = some t ∧ t.id = i ∧
        t ∈ readyCandidates allProj := by
    intro i hi
    rcases List.mem_map.mp hi with ⟨c, hc, rfl⟩
    refine ⟨c, ?_, rfl, hc⟩
    rw [allTaskMap_get]
    exact lastTask_of_nodup allProj c hids (hcand_all c hc)
  constructor
  · intro e he
    rw [readyTasks_unfold]
    by_cases hc : readyCandidates allProj = []
    · rw [if_pos hc, hc]
    · rw [if_neg hc, he]
  · intro ord hok
    rw [readyTasks_unfold]
    by_cases hc : readyCandidates allProj = []
    · rw [if_pos hc, hc]
      refine ⟨List.Perm.refl _, ?_⟩
      refine (List.filter_eq_nil_iff.mpr ?_).symm
      intro a _
      simp
    · rw [if_neg hc, hok]
      dsimp only
      obtain ⟨hnod, hsub, hperm, _⟩ :=
        topologicalSort_ok_facts _ order ord horder hok
      have hcand_keys : ∀ i ∈ (readyCandidates allProj).map Task.id,
          i ∈ keys (BuildFromTasks
            (allProj.filter fun t => t.taskType = typeTask)) := by
        intro i hi
        rcases List.mem_map.mp hi with ⟨c, hcm, rfl⟩
        rw [mem_keys_build]
        exact List.mem_map_of_mem _ (hcand_tasks c hcm)
      have hfperm : (ord.filter fun id =>
          id ∈ (readyCandidates allProj).map Task.id).Perm
          ((readyCandidates allProj).map Task.id) := by
        refine List.Subperm.antisymm ?_ ?_
        · refine List.subperm_of_subset ((List.filter_sublist _).nodup hnod) ?_
          intro x hx
          have := List.mem_filter.mp hx
          simpa using this.2
        · refine List.subperm_of_subset hcand_ids_nodup ?_
          intro x hx
          rw [List.mem_filter]
          exact ⟨hperm.mem_iff.mpr (hcand_keys x hx), by simpa using hx⟩
      have hmapf : ∀ i ∈ (ord.filter fun id =>
          id ∈ (readyCandidates allProj).map Task.id),
          mapGet? (AllTaskMap allProj) i = some
            ((mapGet? (AllTaskMap allProj) i).getD anyTask) := by
        intro i hi
        rcases hlookup i (by simpa using (List.mem_filter.mp hi).2) with
          ⟨t, ht, _, _⟩
        rw [ht]
        rfl
      have hres_map : (ord.filter fun id =>
          id ∈ (readyCandidates allProj).map Task.id).filterMap
            (fun id => mapGet? (AllTaskMap allProj) id) =
          (ord.filter fun id =>
            id ∈ (readyCandidates allProj).map Task.id).map
            fun i => (mapGet? (AllTaskMap allProj) i).getD anyTask :=
        filterMap_eq_map_of_some _ _ _ hmapf
      have hcand_as_map : ((readyCandidates allProj).map Task.id).map
          (fun i => (mapGet? (AllTaskMap allProj) i).getD anyTask) =
          readyCandidates allProj := by
        rw [List.map_map]
        have : ∀ c ∈ readyCandidates allProj,
            ((fun i => (mapGet? (AllTaskMap allProj) i).getD anyTask) ∘
              Task.id) c = id c := by
          intro c hcm
          show (mapGet? (AllTaskMap allProj) c.id).getD anyTask = c
          rw [allTaskMap_get, lastTask_of_nodup allProj c hids (hcand_all c hcm)]
          rfl
        rw [List.map_congr_left this, List.map_id]
      constructor
      · rw [hres_map]
        have h2 : (((readyCandidates allProj).map Task.id).map
            (fun i => (mapGet? (AllTaskMap allProj) i).getD anyTask)).Perm
            (readyCandidates allProj) := by
          rw [hcand_as_map]
        exact (hfperm.map _).trans h2
      · rw [hres_map, List.map_map]
        have : ∀ i ∈ (ord.filter fun id =>
            id ∈ (readyCandidates allProj).map Task.id),
            (Task.id ∘ fun i =>
              (mapGet? (AllTaskMap allProj) i).getD anyTask) i = id i := by
          intro i hi
          rcases hlookup i (by simpa using (List.mem_filter.mp hi).2) with
            ⟨t, ht, hti, _⟩
          show ((mapGet? (AllTaskMap allProj) i).getD anyTask).id = i
          rw [ht]
          exact hti
        rw [List.map_congr_left this, List.map_id]

/-! ## Store model (`internal/store/store.go`, `internal/store/task.go`)

The file system is abstracted into a state: the existing project
directories and the stored task files.  A task file lives at
`projects/<p>/tasks/<id>.md`, and the code only ever writes a task whose
`project` field is that directory and whose `id` is that file name, so an
entry `t` of the state stands for the file with key `(t.project, t.id)`;
well-formedness (`WFStore`) says file paths are distinct.  `os.ReadDir`
and `filepath.Glob` return name-sorted entries, hence the sorts on
directory scans and listings.  The generated id (`id.NewTaskID`), the
clock and the user name enter as parameters `tid`, `nowv`, `usr`; file
bodies and the `id.TypeOf` format check of `ResolveEntityPath` are not
modelled (the latter only adds failure paths, which the success-only
invariants below quantify away). -/

structure StoreState where
  projects : List String
  tasks : List Task
  deriving Repr

/-- One file per path. -/
def WFStore (σ : StoreState) : Prop :=
  σ.tasks.Pairwise fun t u => ¬ (t.project = u.project ∧ t.id = u.id)

/-- Does `projects/<p>/tasks/<tid>.md` exist, and with which content? -/
def findTaskIn (σ : StoreState) (p tid : String) : Option Task :=
  σ.tasks.find? fun t => t.project = p ∧ t.id = tid

/-- `Store.ResolveEntityPath` followed by `ReadEntity`: scan the
name-sorted project directories for `tasks/<tid>.md`. -/
def getTask (σ : StoreState) (tid : String) : Option Task :=
  (sortStrings σ.projects).findSome? fun p => findTaskIn σ p tid

/-- `Store.ListTasks` with a `ProjectID` filter: the project's task files
in file-name (= id) order. -/
def listTasksProj (σ : StoreState) (p : String) : List Task :=
  (σ.tasks.filter fun t => t.project = p).insertionSort
    fun a b => strLe a.id b.id = true

/-- `Store.ListTasks` with `ProjectID` and `Type: model.TypeTask` filters. -/
def listTasksTyped (σ : StoreState) (p : String) : List Task :=
  (listTasksProj σ p).filter fun t => t.taskType = typeTask

/-- The dependency-existence loop at the head of `Store.validateDeps`. -/
def checkDeps (σ : StoreState) (projectID : String) :
    List String → Except String Unit
  | [] => .ok ()
  | dep :: rest =>
      match getTask σ dep with
      | none => .error ("dependency " ++ dep ++ " not found")
      | some dt =>
          if dt.project ≠ projectID then
            .error ("dependency " ++ dep ++ " is in project " ++ dt.project ++
              ", not " ++ projectID)
          else if dt.taskType = typeEpic then
            .error ("cannot depend on epic-type task " ++ dep)
          else checkDeps σ projectID rest

/-- The list-rebuild step of `Store.validateDeps`: every existing task
whose id matches the pending task is replaced by it, and the pending task
is appended when no id matched. -/
def substitutePending (existing : List Task) (t : Task) : List Task :=
  (existing.map fun e => if e.id = t.id then t else e) ++
    (if existing.any fun e => e.id = t.id then [] else [t])

/-- `Store.validateDeps`.  The `ValidateAcyclic` call ranges over the Go
node map in runtime order; the embedding uses the insertion-order key
enumeration (`validateAcyclic_ok_iff` shows success does not depend on the
order). -/
def validateDeps (σ : StoreState) (t : Task) (projectID : String) :
    Except String Unit :=
  match checkDeps σ projectID t.dependsOn with
  | .error e => .error e
  | .ok () =>
      ValidateAcyclic
        (BuildFromTasks (substitutePending (listTasksTyped σ projectID) t))
        (keys (BuildFromTasks
          (substitutePending (listTasksTyped σ projectID) t)))

/-- `Store.WriteEntity` on a task path: overwrite the file if it exists,
else create it. -/
def writeTask (σ : StoreState) (t : Task) : StoreState :=
  { σ with tasks :=
      if σ.tasks.any fun u => u.project = t.project ∧ u.id = t.id then
        σ.tasks.map fun u =>
          if u.project = t.project ∧ u.id = t.id then t else u
      else σ.tasks ++ [t] }

structure TaskCreateOpts where
  taskType : String
  epic : String
  priority : Option Int
  dependsOn : List String
  deriving Repr

structure TaskUpdate where
  title : Option String
  status : Option String
  priority : Option (Option Int)
  dependsOn : Option (List String)
  deriving Repr

/-- `Store.CreateTask` (`internal/store/task.go`, lines 36–87). -/
def CreateTask (σ : StoreState) (title projectID : String)
    (opts : TaskCreateOpts) (tid : String) (nowv : Nat) (usr : String) :
    Except String (Task × StoreState) :=
  if projectID ∉ σ.projects then
    .error ("project " ++ projectID ++ " not found")
  else
    let taskType := if opts.taskType = "" then typeTask else opts.taskType
    let epicOk : Except String Unit :=
      if opts.epic = "" then .ok ()
      else match getTask σ opts.epic with
        | none => .error ("epic " ++ opts.epic ++ " not found")
        | some epic =>
            if epic.taskType ≠ typeEpic then
              .error (opts.epic ++ " is not an epic-type task")
            else .ok ()
    match epicOk with
    | .error e => .error e
    | .ok () =>
        let t : Task := ⟨tid, title, taskType, projectID, opts.epic,
          statusOpen, opts.priority, opts.dependsOn, usr, nowv, nowv⟩
        match t.Validate with
        | .error e => .error e
        | .ok () =>
            match validateDeps σ t projectID with
            | .error e => .error e
            | .ok () => .ok (t, writeTask σ t)

/-- `Store.UpdateTask` (`internal/store/task.go`, lines 140–181). -/
def UpdateTask (σ : StoreState) (taskID : String) (upd : TaskUpdate)
    (nowv : Nat) : Except String (Task × StoreState) :=
  match getTask σ taskID with
  | none => .error (taskID ++ " not found")
  | some t0 =>
      let t1 : Task := { t0 with
        title := upd.title.getD t0.title
        status := upd.status.getD t0.status
        priority := upd.priority.getD t0.priority
        dependsOn := upd.dependsOn.getD t0.dependsOn
        updatedAt := nowv }
      match t1.Validate with
      | .error e => .error e
      | .ok () =>
          match (match upd.dependsOn with
                 | some _ => validateDeps σ t1 t1.project
                 | none => .ok ()) with
          | .error e => .error e
          | .ok () => .ok (t1, writeTask σ t1)

/-! ## The acyclicity invariant of the store -/

theorem listTasksTyped_mem (σ : StoreState) (p : String) (u : Task) :
    u ∈ listTasksTyped σ p ↔
      u ∈ σ.tasks ∧ u.project = p ∧ u.taskType = typeTask := by
  rw [listTasksTyped, List.mem_filter, listTasksProj,
    (List.perm_insertionSort _ _).mem_iff, List.mem_filter]
  simp [and_assoc]

theorem listTasksTyped_ids_nodup (σ : StoreState) (p : String)
    (hwf : WFStore σ) : ((listTasksTyped σ p).map Task.id).Nodup := by
  have h1 : List.Pairwise (fun a b : Task => a.id ≠ b.id)
      (σ.tasks.filter fun t => t.project = p) := by
    refine List.Pairwise.imp_of_mem ?_ (hwf.filter _)
    intro a b ha hb hR he
    have hap : a.project = p := by simpa using List.of_mem_filter ha
    have hbp : b.project = p := by simpa using List.of_mem_filter hb
    exact hR ⟨hap.trans hbp.symm, he⟩
  have h2 : ((σ.tasks.filter fun t => t.project = p).map Task.id).Nodup :=
    List.pairwise_map.mpr h1
  have h3 : ((listTasksProj σ p).map Task.id).Nodup := by
    rw [listTasksProj]
    exact (((List.perm_insertionSort _ _).map Task.id).nodup_iff).mpr h2
  exact ((List.filter_sublist _).map Task.id).nodup h3

theorem subst_ids (existing : List Task) (t : Task) :
    (substitutePending existing t).map Task.id =
      existing.map Task.id ++
        (if existing.any fun e => e.id = t.id then [] else [t.id]) := by
  rw [substitutePending, List.map_append]
  congr 1
  · rw [List.map_map]
    refine List.map_congr_left ?_
    intro e _
    show (if e.id = t.id then t else e).id = e.id
    by_cases h : e.id = t.id
    · rw [if_pos h, h]
    · rw [if_neg h]
  · by_cases h : existing.any fun e => e.id = t.id
    · rw [if_pos h, if_pos h]
      rfl
    · rw [if_neg h, if_neg h]
      rfl

theorem subst_ids_nodup (existing : List Task) (t : Task)
    (h : (existing.map Task.id).Nodup) :
    ((substitutePending existing t).map Task.id).Nodup := by
  rw [subst_ids]
  by_cases hany : existing.any fun e => e.id = t.id
  · rw [if_pos hany]
    simpa using h
  · rw [if_neg hany]
    rw [List.nodup_append]
    refine ⟨h, List.nodup_singleton _, ?_⟩
    intro x hx hx'
    rw [List.mem_singleton] at hx'
    subst hx'
    rcases List.mem_map.mp hx with ⟨e, he, hei⟩
    exact hany (List.any_eq_true.mpr ⟨e, he, by simp [hei]⟩)

theorem mem_subst_self (existing : List Task) (t : Task) :
    t ∈ substitutePending existing t := by
  rw [substitutePending]
  by_cases hany : existing.any fun e => e.id = t.id
  · rcases List.any_eq_true.mp hany with ⟨e, he, hei⟩
    refine List.mem_append.mpr (Or.inl ?_)
    refine List.mem_map.mpr ⟨e, he, ?_⟩
    rw [if_pos (by simpa using hei)]
  · rw [if_neg hany]
    exact List.mem_append.mpr (Or.inr (List.mem_singleton_self t))

theorem mem_subst_of (existing : List Task) (t u : Task)
    (hu : u ∈ existing) (hne : u.id ≠ t.id) :
    u ∈ substitutePending existing t := by
  rw [substitutePending]
  refine List.mem_append.mpr (Or.inl ?_)
  refine List.mem_map.mpr ⟨u, hu, ?_⟩
  rw [if_neg hne]

theorem writeTask_mem (σ : StoreState) (t u : Task)
    (h : u ∈ (writeTask σ t).tasks) :
    u = t ∨ (u ∈ σ.tasks ∧ ¬(u.project = t.project ∧ u.id = t.id)) := by
  rw [writeTask] at h
  by_cases hany : σ.tasks.any fun v => v.project = t.project ∧ v.id = t.id
  · rw [if_pos hany] at h
    rcases List.mem_map.mp h with ⟨v, hv, he⟩
    by_cases hk : v.project = t.project ∧ v.id = t.id
    · rw [if_pos (by simpa using hk)] at he
      exact Or.inl he.symm
    · rw [if_neg (by simpa using hk)] at he
      exact Or.inr ⟨he ▸ hv, he ▸ hk⟩
  · rw [if_neg hany] at h
    rcases List.mem_append.mp h with h | h
    · refine Or.inr ⟨h, ?_⟩
      intro hk
      exact hany (List.any_eq_true.mpr ⟨u, h, by simp [hk.1, hk.2]⟩)
    · exact Or.inl (List.mem_singleton.mp h)

theorem writeTask_wf (σ : StoreState) (t : Task) (hwf : WFStore σ) :
    WFStore (writeTask σ t) := by
  rw [WFStore, writeTask]
  by_cases hany : σ.tasks.any fun v => v.project = t.project ∧ v.id = t.id
  · rw [if_pos hany]
    simp only
    rw [List.pairwise_map]
    refine List.Pairwise.imp_of_mem ?_ hwf
    intro a b _ _ hR hk
    by_cases ha : a.project = t.project ∧ a.id = t.id
    · by_cases hb : b.project = t.project ∧ b.id = t.id
      · exact hR ⟨ha.1.trans hb.1.symm, ha.2.trans hb.2.symm⟩
      · rw [if_pos (by simpa using ha), if_neg (by simpa using hb)] at hk
        exact hb ⟨hk.1.symm, hk.2.symm⟩
    · by_cases hb : b.project = t.project ∧ b.id = t.id
      · rw [if_neg (by simpa using ha), if_pos (by simpa using hb)] at hk
        exact ha ⟨hk.1, hk.2⟩
      · rw [if_neg (by simpa using ha), if_neg (by simpa using hb)] at hk
        exact hR hk
  · rw [if_neg hany]
    simp only
    rw [List.pairwise_append]
    refine ⟨hwf, List.pairwise_singleton _ _, ?_⟩
    intro a ha b hb
    rw [List.mem_singleton] at hb
    subst hb
    intro hk
    exact hany (List.any_eq_true.mpr ⟨a, ha, by simp [hk.1, hk.2]⟩)

/-- Every typed task of the written project also occurs in the list the
validator checked. -/
theorem listTyped_write_subset (σ : StoreState) (t : Task) :
    ∀ u ∈ listTasksTyped (writeTask σ t) t.project,
      u ∈ substitutePending (listTasksTyped σ t.project) t := by
  intro u hu
  rw [listTasksTyped_mem] at hu
  obtain ⟨humem, huproj, hutyped⟩ := hu
  rcases writeTask_mem σ t u humem with rfl | ⟨hmem, hkey⟩
  · exact mem_subst_self _ u
  · have hne : u.id ≠ t.id := fun he => hkey ⟨huproj, he⟩
    exact mem_subst_of _ _ _
      ((listTasksTyped_mem σ t.project u).mpr ⟨hmem, huproj, hutyped⟩) hne

/-- Acyclicity is antitone in the task list when ids stay distinct. -/
theorem acyclic_of_subset (L₂ L₁ : List Task)
    (h₁ : (L₁.map Task.id).Nodup)
    (hsub : ∀ u ∈ L₂, u ∈ L₁)
    (hacy : AcyclicG (BuildFromTasks L₁)) : AcyclicG (BuildFromTasks L₂) := by
  intro x hx
  refine hacy x ?_
  refine Relation.TransGen.mono ?_ hx
  intro a b hab
  obtain ⟨hmem, hcont⟩ := hab
  -- the edge list of a in L₂ comes from some task also present in L₁
  rw [edgesOf_build] at hmem
  cases hlt : lastTask L₂ a with
  | none =>
      rw [hlt] at hmem
      cases hmem
  | some u =>
      rw [hlt] at hmem
      have hu₂ : u ∈ L₂ := lastTask_mem _ _ _ hlt
      have hua : u.id = a := lastTask_id _ _ _ hlt
      have hu₁ : u ∈ L₁ := hsub u hu₂
      have hlt₁ : lastTask L₁ a = some u := by
        rw [← hua]
        exact lastTask_of_nodup L₁ u h₁ hu₁
      constructor
      · rw [edgesOf_build, hlt₁]
        exact hmem
      · rcases (containsNode_build L₂ b).mp hcont with ⟨v, hv, hvb⟩
        exact (containsNode_build L₁ b).mpr ⟨v, hsub v hv, hvb⟩

/-- Passing `validateDeps` guarantees the project graph after the write is
acyclic. -/
theorem post_write_acyclic (σ : StoreState) (t : Task) (hwf : WFStore σ)
    (hval : validateDeps σ t t.project = .ok ()) :
    AcyclicG (BuildFromTasks (listTasksTyped (writeTask σ t) t.project)) := by
  rw [validateDeps] at hval
  cases hchk : checkDeps σ t.project t.dependsOn with
  | error e => rw [hchk] at hval; cases hval
  | ok u =>
      cases u
      rw [hchk] at hval
      have hacy := (validateAcyclic_ok_iff _ _ (List.Perm.refl _)).mp hval
      refine acyclic_of_subset _ _ ?_ (listTyped_write_subset σ t) hacy
      exact subst_ids_nodup _ t (listTasksTyped_ids_nodup σ t.project hwf)

/-- A successful `CreateTask` passed `validateDeps` on the task it wrote. -/
theorem createTask_ok (σ : StoreState) (title projectID : String)
    (opts : TaskCreateOpts) (tid : String) (nowv : Nat) (usr : String)
    (t : Task) (σ' : StoreState)
    (h : CreateTask σ title projectID opts tid nowv usr = .ok (t, σ')) :
    validateDeps σ t t.project = .ok () ∧ σ' = writeTask σ t ∧
      t.project = projectID := by
  simp only [CreateTask] at h
  split at h
  · cases h
  · split at h
    · cases h
    · split at h
      · cases h
      · split at h
        · cases h
        · rename_i hval
          rw [Except.ok.injEq, Prod.mk.injEq] at h
          obtain ⟨ht, hσ⟩ := h
          subst ht
          exact ⟨hval, hσ.symm, rfl⟩

/-- A successful `UpdateTask` whose update carries a new `DependsOn` list
passed `validateDeps` on the task it wrote. -/
theorem updateTask_ok (σ : StoreState) (taskID : String) (upd : TaskUpdate)
    (nowv : Nat) (d : List String) (t : Task) (σ' : StoreState)
    (hdep : upd.dependsOn = some d)
    (h : UpdateTask σ taskID upd nowv = .ok (t, σ')) :
    validateDeps σ t t.project = .ok () ∧ σ' = writeTask σ t := by
  simp only [UpdateTask, hdep] at h
  split at h
  · cases h
  · split at h
    · cases h
    · split at h
      · cases h
      · rename_i hval
        rw [Except.ok.injEq, Prod.mk.injEq] at h
        obtain ⟨ht, hσ⟩ := h
        subst ht
        exact ⟨hval, hσ.symm⟩

/-! ## The dependency checks of `Task.Validate` -/

/-- The duplicate/self-dependency loop errors whenever the remaining list
holds the task's own id, a duplicate, or an id already seen. -/
theorem depsCheck_err (tid : String) (deps seen : List String)
    (h : tid ∈ deps ∨ ¬ deps.Nodup ∨ ∃ d ∈ deps, d ∈ seen) :
    ∃ e, depsCheck tid deps seen = .error e := by
  induction deps generalizing seen with
  | nil =>
      rcases h with h | h | ⟨d, hd, _⟩
      · cases h
      · exact absurd List.nodup_nil h
      · cases hd
  | cons dep rest ih =>
      rw [depsCheck]
      by_cases h1 : dep = tid
      · rw [if_pos h1]
        exact ⟨_, rfl⟩
      · rw [if_neg h1]
        by_cases h2 : dep ∈ seen
        · rw [if_pos h2]
          exact ⟨_, rfl⟩
        · rw [if_neg h2]
          refine ih (dep :: seen) ?_
          rcases h with h | h | ⟨d, hd, hds⟩
          · rcases List.mem_cons.mp h with h | h
            · exact absurd h.symm h1
            · exact Or.inl h
          · rw [List.nodup_cons] at h
            push_neg at h
            by_cases h3 : dep ∈ rest
            · exact Or.inr (Or.inr ⟨dep, h3, List.mem_cons_self dep seen⟩)
            · exact Or.inr (Or.inl (h h3))
          · rcases List.mem_cons.mp hd with rfl | hd
            · exact absurd hds h2
            · exact Or.inr (Or.inr ⟨d, hd, List.mem_cons_of_mem dep hds⟩)

/-- `Task.Validate` errors on a self-dependency or a duplicate dependency
(either in its own dependency loop, or earlier in one of the field checks). -/
theorem validate_err_of_bad_deps (t : Task)
    (h : t.id ∈ t.dependsOn ∨ ¬ t.dependsOn.Nodup) :
    ∃ e, t.Validate = .error e := by
  rw [Task.Validate]
  by_cases h1 : t.id = ""
  · rw [if_pos h1]; exact ⟨_, rfl⟩
  · rw [if_neg h1]
    by_cases h2 : t.title = ""
    · rw [if_pos h2]; exact ⟨_, rfl⟩
    · rw [if_neg h2]
      by_cases h3 : t.project = ""
      · rw [if_pos h3]; exact ⟨_, rfl⟩
      · rw [if_neg h3]
        by_cases h4 : t.taskType ≠ typeTask ∧ t.taskType ≠ typeEpic
        · rw [if_pos h4]; exact ⟨_, rfl⟩
        · rw [if_neg h4]
          cases hst : ValidateStatus t.status with
          | error e => exact ⟨e, rfl⟩
          | ok u =>
              cases u
              by_cases h5 : t.priority.any fun p => p < 0 ∨ p > 3
              · rw [if_pos h5]; exact ⟨_, rfl⟩
              · rw [if_neg h5]
                by_cases h6 : t.taskType = typeEpic ∧ t.dependsOn ≠ []
                · rw [if_pos h6]; exact ⟨_, rfl⟩
                · rw [if_neg h6]
                  exact depsCheck_err t.id t.dependsOn []
                    (h.imp id fun h' => Or.inl h')

/-! ## Self-loops on a single-node graph -/

theorem buildCyclePath_self (parent : List (String × String)) (x : String) :
    buildCyclePath parent x x = x ++ " -> " ++ x := by
  rw [buildCyclePath, cyclePathLoop, if_pos rfl]
  show String.intercalate " -> " [x, x] = x ++ " -> " ++ x
  simp [String.intercalate, String.intercalate.go]

theorem containsNode_single (t : Task) (d : String) :
    containsNode (BuildFromTasks [t]) d = true ↔ d = t.id := by
  rw [containsNode_build]
  constructor
  · rintro ⟨u, hu, he⟩
    rw [List.mem_singleton.mp hu] at he
    exact he.symm
  · rintro rfl
    exact ⟨t, List.mem_singleton_self t, rfl⟩

theorem dfsDeps_selfloop (t : Task)
    (visit : DfsState → String → Option (Except String DfsState))
    (deps : List String) (st : DfsState)
    (hcol : colorOf st t.id = 1) (hdep : t.id ∈ deps) :
    dfsDeps (BuildFromTasks [t]) visit t.id deps st =
      some (.error ("cycle detected: " ++ buildCyclePath st.parent t.id t.id)) := by
  induction deps with
  | nil => cases hdep
  | cons d rest ih =>
      rw [dfsDeps]
      by_cases hd : d = t.id
      · have hcn : containsNode (BuildFromTasks [t]) d = true :=
          (containsNode_single t d).mpr hd
        rw [if_neg (by rw [hcn]; exact fun hc => hc rfl)]
        rw [hd, if_pos hcol]
      · have hcn : containsNode (BuildFromTasks [t]) d = false := by
          cases hc : containsNode (BuildFromTasks [t]) d
          · rfl
          · exact absurd ((containsNode_single t d).mp hc) hd
        rw [if_pos (by rw [hcn]; exact Bool.false_ne_true)]
        refine ih ?_
        rcases List.mem_cons.mp hdep with h | h
        · exact absurd h.symm hd
        · exact h

/-- On the graph of a single self-dependent task the reported cycle path is
the task id followed by itself. -/
theorem validateAcyclic_single_selfloop (t : Task) (hdep : t.id ∈ t.dependsOn) :
    ValidateAcyclic (BuildFromTasks [t]) [t.id] =
      .error ("cycle detected: " ++ t.id ++ " -> " ++ t.id) := by
  have hedge : edgesOf (BuildFromTasks [t]) t.id = t.dependsOn := by
    rw [edgesOf_build]
    have : lastTask [t] t.id = some t := by
      rw [lastTask]
      simp [List.find?_cons]
    rw [this]
    rfl
  have hwhite : colorOf (⟨[], []⟩ : DfsState) t.id = 0 := rfl
  have hgray : colorOf (grayify ⟨[], []⟩ t.id) t.id = 1 := by
    rw [grayify, colorOf]
    exact mapGetD_insert_self _ _ _ _
  rw [ValidateAcyclic]
  show validateLoop _ (1 + 1) [t.id] ⟨[], []⟩ = _
  rw [validateLoop, if_pos hwhite]
  have hvisit2 : dfsVisit (BuildFromTasks [t]) 2 ⟨[], []⟩ t.id =
      some (.error ("cycle detected: " ++ t.id ++ " -> " ++ t.id)) := by
    rw [dfsVisit, hedge,
      dfsDeps_selfloop t _ t.dependsOn (grayify ⟨[], []⟩ t.id) hgray hdep,
      buildCyclePath_self]
    dsimp only
    simp only [String.append_assoc]
  rw [hvisit2]

/-! ## Concrete fixtures for the claim theorems -/

/-- An open task of type `task` in project `p`. -/
def mkT (id : String) (deps : List String) : Task :=
  ⟨id, "t", typeTask, "p", "", statusOpen, none, deps, "u", 0, 0⟩

/-- Two versions of task `A`: the node map keeps the second's edges, the
reverse map keeps both versions' entries. -/
def tasksDup : List Task :=
  [mkT "A" ["B", "C"], mkT "A" ["C"], mkT "B" [], mkT "C" ["B"]]

/-- Two versions of task `A`; the surviving edges form the cycle `A <-> B`. -/
def tasksCyc : List Task :=
  [mkT "A" ["C"], mkT "A" ["B"], mkT "B" ["A"], mkT "C" []]

/-- A clean three-task chain `A -> C -> B`. -/
def tasksChain : List Task := [mkT "B" [], mkT "C" ["B"], mkT "A" ["C"]]

/-- A two-cycle `B <-> C` next to the self-loop `A -> A`. -/
def tasksSelf : List Task := [mkT "B" ["C"], mkT "C" ["B"], mkT "A" ["A"]]

/-- A self-loop plus a dangling dependency id. -/
def taskLoopProbe : Task := mkT "A" ["A", "X"]

/-- A ready task and a task blocked on it. -/
def tasksReady : List Task := [mkT "A" [], mkT "B" ["A"]]

/-- A two-cycle `A <-> B` next to the unblocked task `C`. -/
def tasksCycReady : List Task := [mkT "A" ["B"], mkT "B" ["A"], mkT "C" []]

def taskReadyDupA : Task :=
  ⟨"A", "first", typeTask, "p", "", statusOpen, none, [], "u", 0, 0⟩

def taskReadyDupB : Task :=
  ⟨"A", "second", typeTask, "p", "", statusOpen, none, [], "u", 0, 0⟩

/-- Two distinct open tasks sharing the id `A`. -/
def tasksReadyDup : List Task := [taskReadyDupA, taskReadyDupB]

/-- A store holding one empty project. -/
def storeC8 : StoreState := ⟨["p"], []⟩

def optsC8 : TaskCreateOpts := ⟨"", "", none, []⟩

/-- The task `CreateTask storeC8 "T" "p" optsC8 "A" 0 "u"` builds. -/
def tC8 : Task := ⟨"A", "T", typeTask, "p", "", statusOpen, none, [], "u", 0, 0⟩

/-! ## The claims -/

/-- C1 (amended: the task ids must be pairwise distinct): every id list
returned successfully by `TopologicalSort` on the graph built by
`BuildFromTasks` from tasks with pairwise-distinct ids respects dependency
direction — every resolvable dependency of a node appears at an earlier
position than the node.  Unrestricted the claim fails
(`claim_C1_counterexample`): a duplicated task id leaves stale reverse
edges that let a node be emitted before its resolvable dependency. -/
theorem claim_C1 (tasks : List Task) (order : List String) (l : List String)
    (hids : (tasks.map Task.id).Nodup)
    (horder : order.Perm (keys (BuildFromTasks tasks)))
    (hok : TopologicalSort (BuildFromTasks tasks) order = .ok l) :
    ∀ n ∈ l, ∀ d ∈ edgesOf (BuildFromTasks tasks) n,
      containsNode (BuildFromTasks tasks) d = true →
      l.indexOf d < l.indexOf n :=
  topologicalSort_respects_deps tasks order l hids horder hok

/-- C1 counterexample: on `tasksDup` (task id `A` occurs twice) the sort
succeeds with `A` before its resolvable dependency `C`. -/
theorem claim_C1_counterexample :
    TopologicalSort (BuildFromTasks tasksDup) (keys (BuildFromTasks tasksDup)) =
      .ok ["B", "A", "C"] ∧
    "C" ∈ edgesOf (BuildFromTasks tasksDup) "A" ∧
    containsNode (BuildFromTasks tasksDup) "C" = true ∧
    ¬ (["B", "A", "C"] : List String).indexOf "C" <
        (["B", "A", "C"] : List String).indexOf "A" :=
  ⟨rfl, by decide, by decide, by decide⟩

/-- C1 witness: the chain `A -> C -> B` sorts to `[B, C, A]`, where the
dependency `B` of `C` indeed comes earlier. -/
theorem claim_C1_witness :
    (tasksChain.map Task.id).Nodup ∧
    TopologicalSort (BuildFromTasks tasksChain)
      (keys (BuildFromTasks tasksChain)) = .ok ["B", "C", "A"] ∧
    (["B", "C", "A"] : List String).indexOf "B" <
      (["B", "C", "A"] : List String).indexOf "C" :=
  ⟨by decide, rfl,
    claim_C1 tasksChain (keys (BuildFromTasks tasksChain)) ["B", "C", "A"]
      (by decide) (List.Perm.refl _) rfl "C" (by decide) "B" (by decide)
      (by decide)⟩

/-- C2 (amended: the cycle half needs pairwise-distinct task ids): if the
resolvable edges of the built graph form a DAG, `ValidateAcyclic` succeeds
and `TopologicalSort` returns a permutation of all node ids, for every
map-iteration order; and when the task ids are pairwise distinct and the
resolvable edges contain a cycle, `TopologicalSort` returns an error.
Without distinct ids the cycle half fails (`claim_C2_counterexample`). -/
theorem claim_C2 (tasks : List Task) (order : List String)
    (horder : order.Perm (keys (BuildFromTasks tasks))) :
    (AcyclicG (BuildFromTasks tasks) →
      ValidateAcyclic (BuildFromTasks tasks) order = .ok () ∧
      ∃ l, TopologicalSort (BuildFromTasks tasks) order = .ok l ∧
        l.Perm (keys (BuildFromTasks tasks))) ∧
    ((tasks.map Task.id).Nodup → ¬ AcyclicG (BuildFromTasks tasks) →
      ∃ e, TopologicalSort (BuildFromTasks tasks) order = .error e) := by
  constructor
  · intro hacy
    exact ⟨(validateAcyclic_ok_iff tasks order horder).mpr hacy,
      topologicalSort_perm_of_acyclic tasks order horder hacy⟩
  · intro hids hcyc
    exact topologicalSort_err_of_cycle tasks order hids horder hcyc

/-- C2 counterexample: on `tasksCyc` (task id `A` occurs twice) the
resolvable edges contain the cycle `A -> B -> A`, yet `TopologicalSort`
returns a completed ordering instead of a cycle error — the stale reverse
edge of the overwritten first version decrements `A` a second time. -/
theorem claim_C2_counterexample :
    Reaches (BuildFromTasks tasksCyc) "A" "A" ∧
    TopologicalSort (BuildFromTasks tasksCyc)
      (keys (BuildFromTasks tasksCyc)) = .ok ["C", "A", "B"] := by
  constructor
  · have h1 : resStep (BuildFromTasks tasksCyc) "A" "B" := ⟨by decide, by decide⟩
    have h2 : resStep (BuildFromTasks tasksCyc) "B" "A" := ⟨by decide, by decide⟩
    exact Relation.TransGen.head h1 (Relation.TransGen.single h2)
  · rfl

/-- C2 witness: the acyclic chain satisfies both halves at the key order. -/
theorem claim_C2_witness :
    (keys (BuildFromTasks tasksChain)).Perm
      (keys (BuildFromTasks tasksChain)) ∧
    AcyclicG (BuildFromTasks tasksChain) ∧
    (ValidateAcyclic (BuildFromTasks tasksChain)
        (keys (BuildFromTasks tasksChain)) = .ok () ∧
      ∃ l, TopologicalSort (BuildFromTasks tasksChain)
          (keys (BuildFromTasks tasksChain)) = .ok l ∧
        l.Perm (keys (BuildFromTasks tasksChain))) := by
  have hacy : AcyclicG (BuildFromTasks tasksChain) :=
    (validateAcyclic_ok_iff tasksChain _ (List.Perm.refl _)).mp rfl
  exact ⟨List.Perm.refl _, hacy,
    (claim_C2 tasksChain (keys (BuildFromTasks tasksChain))
      (List.Perm.refl _)).1 hacy⟩

/-- C3: `TopologicalSort` is deterministic — two runs over any two
map-iteration orders of the same built graph return identical results,
because the in-degree map is extensional and the frontier is sorted before
each extraction. -/
theorem claim_C3 (tasks : List Task) (o₁ o₂ : List String)
    (h₁ : o₁.Perm (keys (BuildFromTasks tasks)))
    (h₂ : o₂.Perm (keys (BuildFromTasks tasks))) :
    TopologicalSort (BuildFromTasks tasks) o₁ =
      TopologicalSort (BuildFromTasks tasks) o₂ :=
  topologicalSort_deterministic tasks o₁ o₂ h₁ h₂

/-- C3 witness: the two iteration orders of a two-node graph agree. -/
theorem claim_C3_witness :
    (["A", "B"] : List String).Perm (keys (BuildFromTasks tasksReady)) ∧
    (["B", "A"] : List String).Perm (keys (BuildFromTasks tasksReady)) ∧
    TopologicalSort (BuildFromTasks tasksReady) ["A", "B"] =
      TopologicalSort (BuildFromTasks tasksReady) ["B", "A"] :=
  ⟨by decide, by decide,
    claim_C3 tasksReady ["A", "B"] ["B", "A"] (by decide) (by decide)⟩

/-- C4 (amended: the success clause needs pairwise-distinct task ids):
`ReadyTasks` never propagates a sort failure — on a cycle error it
unconditionally returns the candidates in listing order, on every
snapshot, including one whose ids collide; and on snapshots with
pairwise-distinct task ids the success path returns exactly the
candidates (as a permutation), ordered by the topological order.  With a
duplicated id a candidate is silently replaced by its homonym
(`claim_C4_counterexample`), so "the candidates are returned" fails
unrestricted on the success path. -/
theorem claim_C4 (allProj : List Task) (order : List String) :
    (∀ e, TopologicalSort (BuildFromTasks
        (allProj.filter fun t => t.taskType = typeTask)) order = .error e →
      ReadyTasks allProj order = readyCandidates allProj) ∧
    ((allProj.map Task.id).Nodup →
      order.Perm (keys (BuildFromTasks
        (allProj.filter fun t => t.taskType = typeTask))) →
      ∀ ord, TopologicalSort (BuildFromTasks
          (allProj.filter fun t => t.taskType = typeTask)) order = .ok ord →
        (ReadyTasks allProj order).Perm (readyCandidates allProj) ∧
        (ReadyTasks allProj order).map Task.id =
          ord.filter fun id => id ∈ (readyCandidates allProj).map Task.id) := by
  constructor
  · intro e he
    rw [readyTasks_unfold]
    by_cases hc : readyCandidates allProj = []
    · rw [if_pos hc, hc]
    · rw [if_neg hc, he]
  · intro hids horder
    exact (readyTasks_spec allProj order hids horder).2

/-- C4 counterexample: both homonymous tasks are candidates, yet the
result of `ReadyTasks` holds only the second — the first candidate is not
returned. -/
theorem claim_C4_counterexample :
    taskReadyDupA ∈ readyCandidates tasksReadyDup ∧
    keys (BuildFromTasks
      (tasksReadyDup.filter fun t => t.taskType = typeTask)) = ["A"] ∧
    ReadyTasks tasksReadyDup ["A"] = [taskReadyDupB] ∧
    taskReadyDupA ∉ ReadyTasks tasksReadyDup ["A"] :=
  ⟨by decide, rfl, rfl, by decide⟩

/-- C4 witness: on the cyclic snapshot the sort fails and the candidates
come back in listing order; on the clean snapshot only `A` is ready (`B`
is blocked on it) and the success path returns it in topological
position. -/
theorem claim_C4_witness :
    (TopologicalSort (BuildFromTasks
        (tasksCycReady.filter fun t => t.taskType = typeTask))
        ["A", "B", "C"] =
      .error "cycle detected: topological sort incomplete" ∧
    ReadyTasks tasksCycReady ["A", "B", "C"] =
      readyCandidates tasksCycReady) ∧
    (tasksReady.map Task.id).Nodup ∧
    TopologicalSort (BuildFromTasks
        (tasksReady.filter fun t => t.taskType = typeTask))
      (keys (BuildFromTasks
        (tasksReady.filter fun t => t.taskType = typeTask))) =
      .ok ["A", "B"] ∧
    ((ReadyTasks tasksReady (keys (BuildFromTasks
        (tasksReady.filter fun t => t.taskType = typeTask)))).Perm
      (readyCandidates tasksReady) ∧
    (ReadyTasks tasksReady (keys (BuildFromTasks
        (tasksReady.filter fun t => t.taskType = typeTask)))).map Task.id =
      (["A", "B"] : List String).filter
        fun id => id ∈ (readyCandidates tasksReady).map Task.id) :=
  ⟨⟨rfl,
    (claim_C4 tasksCycReady ["A", "B", "C"]).1
      "cycle detected: topological sort incomplete" rfl⟩,
    by decide, rfl,
    (claim_C4 tasksReady _).2 (by decide) (List.Perm.refl _) ["A", "B"] rfl⟩

/-- C5: `IsBlocked` returns true exactly when some id of `dependsOn` is
absent from the task map or resolves to a task whose status is not
`closed`; a task with an empty `dependsOn` is never blocked. -/
theorem claim_C5 (t : Task) (m : List (String × Task)) :
    (Task.IsBlocked t m = true ↔
      ∃ dep ∈ t.dependsOn, mapGet? m dep = none ∨
        ∃ dt, mapGet? m dep = some dt ∧ dt.status ≠ statusClosed) ∧
    (t.dependsOn = [] → Task.IsBlocked t m = false) := by
  constructor
  · rw [Task.IsBlocked, List.any_eq_true]
    constructor
    · rintro ⟨dep, hdep, hval⟩
      refine ⟨dep, hdep, ?_⟩
      cases hm : mapGet? m dep with
      | none => exact Or.inl rfl
      | some dt =>
          rw [hm] at hval
          refine Or.inr ⟨dt, rfl, ?_⟩
          simpa using hval
    · rintro ⟨dep, hdep, hval⟩
      refine ⟨dep, hdep, ?_⟩
      rcases hval with hm | ⟨dt, hm, hs⟩
      · rw [hm]
      · rw [hm]
        simpa using hs
  · intro h
    rw [Task.IsBlocked, h]
    rfl

/-- C5 witness: a dependency missing from an empty map blocks the task,
and a task without dependencies is unblocked. -/
theorem claim_C5_witness :
    (Task.IsBlocked (mkT "Y" ["X"]) [] = true ↔
      ∃ dep ∈ (mkT "Y" ["X"]).dependsOn,
        mapGet? ([] : List (String × Task)) dep = none ∨
        ∃ dt, mapGet? ([] : List (String × Task)) dep = some dt ∧
          dt.status ≠ statusClosed) ∧
    ((mkT "Y" ["X"]).dependsOn = [] →
      Task.IsBlocked (mkT "Y" ["X"]) [] = false) :=
  claim_C5 (mkT "Y" ["X"]) []

/-- C6 (amended): a resolvable self-loop always makes `ValidateAcyclic`
return a cycle error, and on a graph of a single self-dependent task the
rendered path is the id followed by itself; but when other nodes exist the
reported path can be a different cycle found first
(`claim_C6_counterexample`), so the `A -> A` path clause fails in
general. -/
theorem claim_C6 :
    (∀ tasks order x, order.Perm (keys (BuildFromTasks tasks)) →
      x ∈ edgesOf (BuildFromTasks tasks) x →
      containsNode (BuildFromTasks tasks) x = true →
      ∃ e, ValidateAcyclic (BuildFromTasks tasks) order = .error e) ∧
    (∀ t : Task, t.id ∈ t.dependsOn →
      ValidateAcyclic (BuildFromTasks [t]) [t.id] =
        .error ("cycle detected: " ++ t.id ++ " -> " ++ t.id)) := by
  constructor
  · intro tasks order x horder hx hcx
    have hcyc : ¬ AcyclicG (BuildFromTasks tasks) := fun hacy =>
      hacy x (Relation.TransGen.single ⟨hx, hcx⟩)
    cases hres : ValidateAcyclic (BuildFromTasks tasks) order with
    | error e => exact ⟨e, rfl⟩
    | ok u =>
        cases u
        exact absurd ((validateAcyclic_ok_iff tasks order horder).mp hres) hcyc
  · exact fun t => validateAcyclic_single_selfloop t

/-- C6 counterexample: `tasksSelf` contains the self-loop `A -> A`, but the
DFS reaches the two-cycle first and the reported path is `B -> C -> B`,
not the self-loop's id twice. -/
theorem claim_C6_counterexample :
    "A" ∈ edgesOf (BuildFromTasks tasksSelf) "A" ∧
    containsNode (BuildFromTasks tasksSelf) "A" = true ∧
    ValidateAcyclic (BuildFromTasks tasksSelf)
      (keys (BuildFromTasks tasksSelf)) =
      .error "cycle detected: B -> C -> B" :=
  ⟨by decide, by decide, rfl⟩

/-- C6 witness: a self-loop makes validation fail, and on the single-task
graph the rendered path is the id twice. -/
theorem claim_C6_witness :
    (∃ e, ValidateAcyclic (BuildFromTasks [taskLoopProbe])
      (keys (BuildFromTasks [taskLoopProbe])) = .error e) ∧
    ValidateAcyclic (BuildFromTasks [mkT "A" ["A"]]) [(mkT "A" ["A"]).id] =
      .error ("cycle detected: " ++ (mkT "A" ["A"]).id ++ " -> " ++
        (mkT "A" ["A"]).id) :=
  ⟨claim_C6.1 [taskLoopProbe] (keys (BuildFromTasks [taskLoopProbe])) "A"
      (List.Perm.refl _) (by decide) (by decide),
    claim_C6.2 (mkT "A" ["A"]) (by decide)⟩

/-- C7: dangling dependency ids are inert — inserting a dependency on an
id carried by no task changes neither the `ValidateAcyclic` nor the
`TopologicalSort` result (in particular it cannot create a cycle error or
a missing-key failure), and leaves every node's in-degree seed
(`resolvableCount`) unchanged. -/
theorem claim_C7 (pre post : List Task) (t : Task) (l₁ l₂ : List String)
    (d : String) (order : List String)
    (ht : t.dependsOn = l₁ ++ l₂)
    (hd : ∀ u ∈ pre ++ t :: post, u.id ≠ d)
    (horder : ∀ x ∈ order, x ∈ keys (BuildFromTasks (pre ++ t :: post))) :
    ValidateAcyclic (BuildFromTasks
        (pre ++ { t with dependsOn := l₁ ++ d :: l₂ } :: post)) order =
      ValidateAcyclic (BuildFromTasks (pre ++ t :: post)) order ∧
    TopologicalSort (BuildFromTasks
        (pre ++ { t with dependsOn := l₁ ++ d :: l₂ } :: post)) order =
      TopologicalSort (BuildFromTasks (pre ++ t :: post)) order ∧
    ∀ x, resolvableCount (BuildFromTasks
        (pre ++ { t with dependsOn := l₁ ++ d :: l₂ } :: post)) x =
      resolvableCount (BuildFromTasks (pre ++ t :: post)) x := by
  have E := danglingEquiv pre post t l₁ l₂ d ht hd
  exact ⟨validateAcyclic_congr E order, topologicalSort_congr E order horder,
    fun x => graphEquiv_resolvableCount E x⟩

/-- C7 witness: giving `B` a dependency on the unknown id `X` changes
nothing on the two-node graph. -/
theorem claim_C7_witness :
    (mkT "B" []).dependsOn = [] ++ [] ∧
    (∀ u ∈ [] ++ mkT "B" [] :: [mkT "C" ["B"]], u.id ≠ "X") ∧
    (ValidateAcyclic (BuildFromTasks
        ([] ++ mkT "B" ["X"] :: [mkT "C" ["B"]])) ["B", "C"] =
      ValidateAcyclic (BuildFromTasks
        ([] ++ mkT "B" [] :: [mkT "C" ["B"]])) ["B", "C"] ∧
    TopologicalSort (BuildFromTasks
        ([] ++ mkT "B" ["X"] :: [mkT "C" ["B"]])) ["B", "C"] =
      TopologicalSort (BuildFromTasks
        ([] ++ mkT "B" [] :: [mkT "C" ["B"]])) ["B", "C"] ∧
    ∀ x, resolvableCount (BuildFromTasks
        ([] ++ mkT "B" ["X"] :: [mkT "C" ["B"]])) x =
      resolvableCount (BuildFromTasks
        ([] ++ mkT "B" [] :: [mkT "C" ["B"]])) x) :=
  ⟨rfl, by decide,
    claim_C7 [] [mkT "C" ["B"]] (mkT "B" []) [] [] "X" ["B", "C"] rfl
      (by decide) (by decide)⟩

/-- C8: on a well-formed store (one task file per project/id pair), every
successful `CreateTask`, and every successful `UpdateTask` carrying a new
`DependsOn` list, passed `validateDeps` on the task it wrote — and the
stored project graph right after the write is acyclic, so acyclicity of
the persisted graph is an invariant of these steps. -/
theorem claim_C8 (σ : StoreState) (hwf : WFStore σ) :
    (∀ title projectID opts tid nowv usr t σ',
      CreateTask σ title projectID opts tid nowv usr = .ok (t, σ') →
      validateDeps σ t t.project = .ok () ∧
      AcyclicG (BuildFromTasks (listTasksTyped σ' t.project))) ∧
    (∀ taskID upd nowv d t σ', upd.dependsOn = some d →
      UpdateTask σ taskID upd nowv = .ok (t, σ') →
      validateDeps σ t t.project = .ok () ∧
      AcyclicG (BuildFromTasks (listTasksTyped σ' t.project))) := by
  constructor
  · intro title projectID opts tid nowv usr t σ' h
    obtain ⟨hval, hσ, _⟩ :=
      createTask_ok σ title projectID opts tid nowv usr t σ' h
    subst hσ
    exact ⟨hval, post_write_acyclic σ t hwf hval⟩
  · intro taskID upd nowv d t σ' hdep h
    obtain ⟨hval, hσ⟩ := updateTask_ok σ taskID upd nowv d t σ' hdep h
    subst hσ
    exact ⟨hval, post_write_acyclic σ t hwf hval⟩

/-- C8 witness: creating the first task of an empty project passes the
validator and leaves an acyclic stored graph. -/
theorem claim_C8_witness :
    WFStore storeC8 ∧
    CreateTask storeC8 "T" "p" optsC8 "A" 0 "u" =
      .ok (tC8, writeTask storeC8 tC8) ∧
    (validateDeps storeC8 tC8 tC8.project = .ok () ∧
      AcyclicG (BuildFromTasks
        (listTasksTyped (writeTask storeC8 tC8) tC8.project))) :=
  ⟨List.Pairwise.nil, rfl,
    (claim_C8 storeC8 List.Pairwise.nil).1 "T" "p" optsC8 "A" 0 "u" tC8
      (writeTask storeC8 tC8) rfl⟩

/-- C9 (amended): membership in `TransitiveDeps g id` is exactly
reachability from `id` along one or more edge-list entries with no
node-existence filtering — dangling ids are collected too, and `id`
itself appears whenever it lies on such a cycle
(`claim_C9_counterexample`); when `id`'s edge list is empty (in
particular when `id` is not a key of the built graph) the result is
empty. -/
theorem claim_C9 (g : Graph) (id x : String) :
    (x ∈ TransitiveDeps g id ↔ ReachesW g id x) ∧
    (edgesOf g id = [] → TransitiveDeps g id = []) := by
  refine ⟨transitiveDeps_iff_reaches g id x, ?_⟩
  intro h
  rw [TransitiveDeps, walkFuel, h]
  rfl

/-- C9 counterexample: a self-dependent task with a dangling dependency:
the walk returns the start id itself and the id `X` of no node. -/
theorem claim_C9_counterexample :
    TransitiveDeps (BuildFromTasks [taskLoopProbe]) "A" = ["A", "X"] ∧
    "A" ∈ TransitiveDeps (BuildFromTasks [taskLoopProbe]) "A" ∧
    containsNode (BuildFromTasks [taskLoopProbe]) "X" = false ∧
    "X" ∈ TransitiveDeps (BuildFromTasks [taskLoopProbe]) "A" :=
  ⟨rfl, by decide, by decide, by decide⟩

/-- C9 witness: the characterization at the chain's deep dependency. -/
theorem claim_C9_witness :
    (("B" ∈ TransitiveDeps (BuildFromTasks tasksChain) "A") ↔
      ReachesW (BuildFromTasks tasksChain) "A" "B") ∧
    (edgesOf (BuildFromTasks tasksChain) "A" = [] →
      TransitiveDeps (BuildFromTasks tasksChain) "A" = []) :=
  claim_C9 (BuildFromTasks tasksChain) "A" "B"

/-- C10: `Task.Validate` returns an error for every task whose
`DependsOn` holds the task's own id or a repeated id, so self- and
duplicate dependencies never reach the graph or a write. -/
theorem claim_C10 (t : Task)
    (h : t.id ∈ t.dependsOn ∨ ¬ t.dependsOn.Nodup) :
    ∃ e, t.Validate = .error e :=
  validate_err_of_bad_deps t h

/-- C10 witness: a task depending on itself fails validation. -/
theorem claim_C10_witness :
    ((mkT "A" ["A"]).id ∈ (mkT "A" ["A"]).dependsOn ∨
      ¬ (mkT "A" ["A"]).dependsOn.Nodup) ∧
    ∃ e, (mkT "A" ["A"]).Validate = .error e :=
  ⟨Or.inl (by decide), claim_C10 (mkT "A" ["A"]) (Or.inl (by decide))⟩

end Compass
